import Mathlib

/-!
Verification model of the `barter` order-book engine.

The Go sources under `internal/bidder` are embedded shallowly:

* `float64` sizes and prices become an arbitrary linear ordered commutative
  ring `α` (the engine only adds, subtracts, compares and takes minima, so
  this covers the rational and real readings of the code exactly; concrete
  witnesses instantiate `α := ℤ`);
* `*Bid` pointers become natural-number identities into an explicit heap
  (`Heap`), so that mutation through shared pointers (the same `*Bid` is
  reachable from a price level, from the order index and from the caller)
  is represented faithfully;
* Go maps become association lists with Go-map semantics
  (insert overwrites in place, delete filters, lookup of a missing key is
  the nil pointer, modelled by `Option`);
* runtime panics (nil dereference, out-of-range index, the explicit
  `panic` on insufficient volume) become the `Except GoPanic` error branch;
* `time.Now().UnixNano()` and `rand.Intn` draws are passed in as explicit
  parameters, which makes every operation a pure function of its inputs.
-/

namespace Barter

/-- One `Bid` object (`internal/bidder/bid.go`).  The `limitPrice` field models
the `Limit *Limit` back-pointer: `none` is a nil pointer, `some p` is a pointer
to the level with price `p` on the order's own side (on every state the source
can reach, a side holds at most one level per price, so the price identifies
the level). -/
structure BidData (α : Type) [LinearOrderedCommRing α] where
  id : Int
  userId : Int
  size : α
  bid : Bool
  limitPrice : Option α
  timestamp : Int
deriving DecidableEq, Repr

instance {α : Type} [LinearOrderedCommRing α] : Inhabited (BidData α) :=
  ⟨⟨0, 0, 0, false, none, 0⟩⟩

/-- The memory of allocated `Bid` objects: pointer identity to current field
values.  Go mutates `Bid` fields through shared pointers; the model threads
this heap through every operation. -/
abbrev Heap (α : Type) [LinearOrderedCommRing α] := List (Nat × BidData α)

variable {α : Type} [LinearOrderedCommRing α]

/-- Dereference a `*Bid`.  All theorems only ever dereference allocated
pointers, so the `default` fallback is never relevant to any statement. -/
def heapGet (h : Heap α) (r : Nat) : BidData α :=
  match h with
  | [] => default
  | e :: t => if e.1 = r then e.2 else heapGet t r

/-- Write through a `*Bid` pointer.  In Go a write through a live pointer
always lands; the model keeps one binding per pointer identity. -/
def heapSet (h : Heap α) (r : Nat) (d : BidData α) : Heap α :=
  match h with
  | [] => [(r, d)]
  | e :: t => if e.1 = r then (r, d) :: t else e :: heapSet t r d

/-- `Match` (`internal/bidder`): the `Bid`/`Ask` fields are `*Bid` pointers. -/
structure Match (α : Type) [LinearOrderedCommRing α] where
  bid : Nat
  ask : Nat
  sizeFilled : α
  price : α
deriving DecidableEq, Repr

/-- `Trade` record appended to the book's log. -/
structure Trade (α : Type) [LinearOrderedCommRing α] where
  price : α
  size : α
  timestamp : Int
  bid : Bool
deriving DecidableEq, Repr

/-- One price level (`internal/bidder/limit.go`): `Orders` is the FIFO slice
of `*Bid` pointers. -/
structure Limit (α : Type) [LinearOrderedCommRing α] where
  price : α
  orders : List Nat
  totalVolume : α
deriving DecidableEq, Repr

instance : Inhabited (Limit α) := ⟨⟨0, [], 0⟩⟩

/-- `NewLimit` from `limit.go`: empty order slice, zero volume. -/
def NewLimit (price : α) : Limit α :=
  { price := price, orders := [], totalVolume := 0 }

/-- `Limit.fillOrder` from `limit.go`, statement by statement.  `a` is the
resting maker, `b` the incoming taker; every read and write goes through the
heap in source order, so even the (unreachable) aliased case `a = b` behaves
exactly like the Go code. -/
def Limit.fillOrder (l : Limit α) (h : Heap α) (a b : Nat) : Heap α × Match α :=
  let pair := if (heapGet h a).bid then (a, b) else (b, a)
  if (heapGet h a).size ≥ (heapGet h b).size then
    let h1 := heapSet h a { heapGet h a with size := (heapGet h a).size - (heapGet h b).size }
    let sizeFilled := (heapGet h1 b).size
    let h2 := heapSet h1 b { heapGet h1 b with size := 0 }
    (h2, { bid := pair.1, ask := pair.2, sizeFilled := sizeFilled, price := l.price })
  else
    let h1 := heapSet h b { heapGet h b with size := (heapGet h b).size - (heapGet h a).size }
    let sizeFilled := (heapGet h1 a).size
    let h2 := heapSet h1 a { heapGet h1 a with size := 0 }
    (h2, { bid := pair.1, ask := pair.2, sizeFilled := sizeFilled, price := l.price })

/-- The first loop of `Limit.Fill`: walk the resting orders in FIFO order,
stop as soon as the taker is filled, record a match per maker reached, and
collect the makers that became filled (`ordersToDelete`).  The running
`TotalVolume` decrements are accumulated by the caller (`Limit.Fill`), which
is equal in exact arithmetic to the source's in-place subtraction. -/
def Limit.fillLoop (l : Limit α) (h : Heap α) (refs : List Nat) (taker : Nat) :
    Heap α × List (Match α) × List Nat :=
  match refs with
  | [] => (h, [], [])
  | r :: rest =>
    if (heapGet h taker).size = 0 then (h, [], [])
    else
      let step := l.fillOrder h r taker
      let recur := l.fillLoop step.1 rest taker
      (recur.1, step.2 :: recur.2.1,
        if (heapGet step.1 r).size = 0 then r :: recur.2.2 else recur.2.2)

/-- The swap-with-last removal loop used by `Limit.DeleteOrder` and
`BookBid.clearLimit`:

    for i := 0; i < len(l); i++ {
      if p(l[i]) { l[i] = l[len(l)-1]; l = l[:len(l)-1] }
    }

modelled index for index (the loop keeps scanning after a removal and never
re-examines position `i`).  The recursion is driven by an explicit iteration
budget: every step raises `i` by one (and removal also shortens the slice),
so the loop performs at most `l.length - i` further steps, which is the
budget the wrapper supplies. -/
def swapRemoveAux {β : Type} [Inhabited β] (p : β → Bool) :
    Nat → List β → Nat → List β
  | 0, l, _ => l
  | fuel + 1, l, i =>
    if hlt : i < l.length then
      if p (l.get ⟨i, hlt⟩) then
        swapRemoveAux p fuel ((l.set i (l.getLast?.getD default)).dropLast) (i + 1)
      else
        swapRemoveAux p fuel l (i + 1)
    else l

def swapRemoveLoop {β : Type} [Inhabited β] (p : β → Bool) (l : List β) (i : Nat) : List β :=
  swapRemoveAux p (l.length - i) l i

/-- `Limit.DeleteOrder`: remove the order's pointer from the slice by the
swap-with-last loop, nil the back-pointer, subtract the order's (current)
size from the cached volume, and re-sort the slice by timestamp.  The Go
`sort.Sort(l.Orders)` is an unstable sort on `Timestamp`; it is modelled by
insertion sort, which agrees with it on every slice the source can produce
(slices that are already in timestamp order). -/
def Limit.DeleteOrder (l : Limit α) (h : Heap α) (r : Nat) : Heap α × Limit α :=
  let orders1 := swapRemoveLoop (fun x => x == r) l.orders 0
  let od := heapGet h r
  let h1 := heapSet h r { od with limitPrice := none }
  (h1, { l with
          orders := List.insertionSort
            (fun a b => (heapGet h1 a).timestamp ≤ (heapGet h1 b).timestamp) orders1,
          totalVolume := l.totalVolume - od.size })

/-- `Limit.AddOrder`: set the back-pointer, append to the FIFO slice, add the
order's size to the cached volume. -/
def Limit.AddOrder (l : Limit α) (h : Heap α) (r : Nat) : Heap α × Limit α :=
  let od := heapGet h r
  (heapSet h r { od with limitPrice := some l.price },
   { l with orders := l.orders ++ [r], totalVolume := l.totalVolume + od.size })

/-- `Limit.Fill`: run the fill loop, subtract the matched volume from the
cache, then delete every maker that became filled. -/
def Limit.Fill (l : Limit α) (h : Heap α) (taker : Nat) : Heap α × Limit α × List (Match α) :=
  let loop := l.fillLoop h l.orders taker
  let l1 : Limit α := { l with totalVolume := l.totalVolume - (loop.2.1.map Match.sizeFilled).sum }
  let fin := loop.2.2.foldl (fun acc r => acc.2.DeleteOrder acc.1 r) (loop.1, l1)
  (fin.1, fin.2, loop.2.1)

/-- Runtime failures of the Go code: the explicit `panic` on insufficient
market-order volume, nil-pointer dereferences, and out-of-range slice
indexing.  All three crash the goroutine; none is a returned error value. -/
inductive GoPanic where
  | insufficientVolume
  | nilDeref
  | indexOutOfRange
deriving DecidableEq, Repr

deriving instance DecidableEq for Except

/-- The book (`internal/bidder/booked_bids.go`).  The source stores each side
twice, as the slice `asks`/`bids` and as the map `AskLimits`/`BidLimits`; the
two are kept in lockstep (`PlaceLimitOrder` adds a level to both, `clearLimit`
removes it from both), so the model stores each side once and renders a map
lookup as a search of the slice by price. -/
structure Book (α : Type) [LinearOrderedCommRing α] where
  asks : List (Limit α)
  bids : List (Limit α)
  trades : List (Trade α)
  orders : List (Int × Nat)
deriving DecidableEq, Repr

/-- `NewBookBid`. -/
def NewBookBid : Book α :=
  { asks := [], bids := [], trades := [], orders := [] }

/-- Go map insert `m[k] = v`: overwrite in place if present, else add. -/
def mapInsert (m : List (Int × Nat)) (k : Int) (v : Nat) : List (Int × Nat) :=
  if m.any (fun e => e.1 == k) then m.map (fun e => if e.1 = k then (k, v) else e)
  else m ++ [(k, v)]

/-- Go map delete `delete(m, k)`. -/
def mapDelete (m : List (Int × Nat)) (k : Int) : List (Int × Nat) :=
  m.filter (fun e => e.1 != k)

/-- Go map read `m[k]` of a pointer-valued map: a missing key yields the nil
pointer, modelled by `none`. -/
def mapLookup (m : List (Int × Nat)) (k : Int) : Option Nat :=
  match m.find? (fun e => e.1 == k) with
  | some e => some e.2
  | none => none

/-- `BookBid.BidTotalVolume`: sum of the cached level volumes. -/
def Book.BidTotalVolume (ob : Book α) : α :=
  (ob.bids.map Limit.totalVolume).sum

/-- `BookBid.AskTotalVolume`. -/
def Book.AskTotalVolume (ob : Book α) : α :=
  (ob.asks.map Limit.totalVolume).sum

/-- `BookBid.Asks`: `sort.Sort(ByBestAsk{ob.asks})`, ascending by price
(`by_best_ask.go`).  The Go sort is unstable; insertion sort agrees with it on
every reachable book because a side never holds two levels of equal price. -/
def Book.Asks (ob : Book α) : List (Limit α) :=
  List.insertionSort (fun a b => a.price ≤ b.price) ob.asks

/-- `BookBid.Bids`: descending by price. -/
def Book.Bids (ob : Book α) : List (Limit α) :=
  List.insertionSort (fun a b => b.price ≤ a.price) ob.bids

instance : IsTotal (Limit α) (fun a b => a.price ≤ b.price) :=
  ⟨fun a b => le_total a.price b.price⟩

instance : IsTrans (Limit α) (fun a b => a.price ≤ b.price) :=
  ⟨fun _ _ _ hab hbc => le_trans hab hbc⟩

instance : IsTotal (Limit α) (fun a b => b.price ≤ a.price) :=
  ⟨fun a b => le_total b.price a.price⟩

instance : IsTrans (Limit α) (fun a b => b.price ≤ a.price) :=
  ⟨fun _ _ _ hab hbc => le_trans hbc hab⟩

/-- Replace the (unique) level with price `p` in a side slice; used to write a
mutation of a `*Limit` back into the model state. -/
def replaceLevel (ls : List (Limit α)) (p : α) (l1 : Limit α) : List (Limit α) :=
  match ls with
  | [] => []
  | l :: rest => if l.price = p then l1 :: rest else l :: replaceLevel rest p l1

/-- `BookBid.PlaceLimitOrder`: find or create the level at `price` on the
order's own side, register the order in the `Orders` index, and append it to
the level.  No matching of any kind happens here: the opposing side and the
trade log are never read or written. -/
def Book.PlaceLimitOrder (ob : Book α) (h : Heap α) (price : α) (r : Nat) :
    Heap α × Book α :=
  let od := heapGet h r
  let side := if od.bid then ob.bids else ob.asks
  match side.find? (fun l => l.price == price) with
  | some l =>
    let step := l.AddOrder h r
    let side1 := replaceLevel side price step.2
    let ob1 := if od.bid then { ob with bids := side1 } else { ob with asks := side1 }
    (step.1, { ob1 with orders := mapInsert ob1.orders od.id r })
  | none =>
    let step := (NewLimit price).AddOrder h r
    let side1 := side ++ [step.2]
    let ob1 := if od.bid then { ob with bids := side1 } else { ob with asks := side1 }
    (step.1, { ob1 with orders := mapInsert ob1.orders od.id r })

/-- `BookBid.clearLimit`: remove an (emptied) level from its side by the
swap-with-last loop, and drop its map entry.  The Go loop compares `*Limit`
pointers; on every reachable book the pointer is identified by the level's
price, which is how the model locates it. -/
def Book.clearLimit (ob : Book α) (isBid : Bool) (l : Limit α) : Book α :=
  if isBid then { ob with bids := swapRemoveLoop (fun x => x.price == l.price) ob.bids 0 }
  else { ob with asks := swapRemoveLoop (fun x => x.price == l.price) ob.asks 0 }

/-- `BookBid.CancelOrder(o)`: read `o.Limit`, remove the order from that
level, delete the index entry, and clear the level if it emptied.  A nil
argument (the handler passes `ob.Orders[id]` unchecked) or a nil `o.Limit`
(the order is no longer resting) dereferences nil and panics; there is no
`NotFound` result anywhere in the source. -/
def Book.CancelOrder (ob : Book α) (h : Heap α) (o : Option Nat) :
    Except GoPanic (Heap α × Book α) :=
  match o with
  | none => .error .nilDeref
  | some r =>
    let od := heapGet h r
    match od.limitPrice with
    | none => .error .nilDeref
    | some p =>
      let side := if od.bid then ob.bids else ob.asks
      match side.find? (fun l => l.price == p) with
      | none =>
        -- Unreachable in the source: a non-nil `o.Limit` always points to a
        -- level still registered on `o`'s side.
        .ok (h, { ob with orders := mapDelete ob.orders od.id })
      | some l =>
        let step := l.DeleteOrder h r
        let side1 := replaceLevel side p step.2
        let ob1 := if od.bid then { ob with bids := side1 } else { ob with asks := side1 }
        let ob2 := { ob1 with orders := mapDelete ob1.orders od.id }
        .ok (step.1, if step.2.orders.isEmpty then ob2.clearLimit od.bid step.2 else ob2)

/-- The matching loop of `BookBid.PlaceMarketOrder`, running over the side's
levels sorted best-first: fill each level against the taker and drop levels
whose order slice emptied.  (The Go `range` iterates the slice that
`ob.Asks()` sorted in place while `clearLimit` swap-removes from it; because
a cleared level is always at or before the loop index and distinct from every
later element, the loop still visits exactly the sorted levels in sorted
order, which is what this function does.  The surviving levels are re-sorted
by the source before every later use, so only their multiset matters.) -/
def marketLoop (h : Heap α) (ls : List (Limit α)) (taker : Nat) :
    Heap α × List (Limit α) × List (Match α) :=
  match ls with
  | [] => (h, [], [])
  | l :: rest =>
    let step := l.Fill h taker
    let recur := marketLoop step.1 rest taker
    (recur.1,
     (if step.2.1.orders.isEmpty then recur.2.1 else step.2.1 :: recur.2.1),
     step.2.2 ++ recur.2.2)

/-- `BookBid.PlaceMarketOrder`: panic if the taker asks for more than the
opposing side's total volume; otherwise fill best-first, append one `Trade`
per match (each stamped `time.Now().UnixNano()`, modelled by `now`), and then
log `ob.Trades[len(ob.Trades)-1].Price` — an out-of-range read whenever the
trade log is still empty at that point. -/
def Book.PlaceMarketOrder (ob : Book α) (h : Heap α) (taker : Nat) (now : Int) :
    Except GoPanic (List (Match α) × Heap α × Book α) :=
  let od := heapGet h taker
  if od.bid then
    if od.size > ob.AskTotalVolume then .error .insufficientVolume
    else
      let loop := marketLoop h ob.Asks taker
      let trades1 := ob.trades ++
        loop.2.2.map (fun m => { price := m.price, size := m.sizeFilled,
                                 timestamp := now, bid := od.bid })
      if trades1.isEmpty then .error .indexOutOfRange
      else .ok (loop.2.2, loop.1, { ob with asks := loop.2.1, trades := trades1 })
  else
    if od.size > ob.BidTotalVolume then .error .insufficientVolume
    else
      let loop := marketLoop h ob.Bids taker
      let trades1 := ob.trades ++
        loop.2.2.map (fun m => { price := m.price, size := m.sizeFilled,
                                 timestamp := now, bid := od.bid })
      if trades1.isEmpty then .error .indexOutOfRange
      else .ok (loop.2.2, loop.1, { ob with bids := loop.2.1, trades := trades1 })

/-- `NewBid` (`bid.go`): the id is `int64(rand.Intn(10000000))` — a random
draw, not a counter.  The draw is modelled by the explicit `randVal`
parameter (`rand.Intn(10000000)` can return any value in `[0, 10000000)`,
and `randVal % 10000000` realises exactly those); the timestamp parameter
models `time.Now().UnixNano()`. -/
def NewBid (bid : Bool) (size : α) (userId : Int) (randVal : Nat) (now : Int) : BidData α :=
  { id := Int.ofNat (randVal % 10000000), userId := userId, size := size,
    bid := bid, limitPrice := none, timestamp := now }

/-- `Exchange.CancelBid` (`barter_server_handler.go`): read `ob.Orders[id]`
without a presence check and hand the (possibly nil) pointer to
`CancelOrder`. -/
def CancelBid (ob : Book α) (h : Heap α) (id : Int) : Except GoPanic (Heap α × Book α) :=
  ob.CancelOrder h (mapLookup ob.orders id)

/-- Pointers of all orders currently resting on some level of the book. -/
def Book.restingRefs (ob : Book α) : List Nat :=
  ((ob.bids ++ ob.asks).map Limit.orders).flatten

/-- Ids of all orders currently resting on some level of the book. -/
def Book.restingIds (ob : Book α) (h : Heap α) : List Int :=
  ob.restingRefs.map (fun r => (heapGet h r).id)

/-- Ids present in the `Orders` index. -/
def Book.indexIds (ob : Book α) : List Int :=
  ob.orders.map Prod.fst

/-- The sum the cached `TotalVolume` is supposed to equal. -/
def levelSum (h : Heap α) (l : Limit α) : α :=
  (l.orders.map (fun r => (heapGet h r).size)).sum

/-- The §8 volume identity for one price level. -/
def volOk (h : Heap α) (l : Limit α) : Prop :=
  l.totalVolume = levelSum h l

/-- Rotate the last element of a list to its front; the shape left behind by
one swap-with-last removal in the middle of a slice. -/
def rotLast {β : Type} [Inhabited β] (ys : List β) : List β :=
  match ys.getLast? with
  | none => []
  | some z => z :: ys.dropLast

/-- Scenario for C1: a resting ask of size 5 at price 90 (pointer 0, id 1) and
a freshly allocated limit bid of size 3 at price 100 (pointer 1, id 2), which
crosses the best ask. -/
def hC1 : Heap ℤ := [(0, ⟨1, 10, 5, false, some 90, 100⟩), (1, ⟨2, 11, 3, true, none, 200⟩)]

def obC1 : Book ℤ := { asks := [⟨90, [0], 5⟩], bids := [], trades := [], orders := [(1, 0)] }

/-- Scenario for C3: a resting ask of size 5 at 90 (pointer 0, id 1) and a
market bid of size 5 (pointer 1, id 2) that consumes it exactly. -/
def hC3 : Heap ℤ := [(0, ⟨1, 10, 5, false, some 90, 100⟩), (1, ⟨2, 11, 5, true, none, 200⟩)]

def obC3 : Book ℤ := { asks := [⟨90, [0], 5⟩], bids := [], trades := [], orders := [(1, 0)] }

def hC3post : Heap ℤ := [(0, ⟨1, 10, 0, false, none, 100⟩), (1, ⟨2, 11, 0, true, none, 200⟩)]

def obC3post : Book ℤ :=
  { asks := [], bids := [], trades := [⟨90, 5, 99, true⟩], orders := [(1, 0)] }

def hC3c : Heap ℤ := [(0, ⟨1, 10, 5, false, none, 100⟩), (1, ⟨2, 11, 5, true, none, 200⟩)]

def obC3c : Book ℤ := { asks := [], bids := [], trades := [], orders := [] }

/-- Scenario for C5: an ask level at 90 holding two resting asks (pointers 0
and 1, sizes 5 and 2), a market bid taker (pointer 2, size 6). -/
def hC5 : Heap ℤ :=
  [(0, ⟨1, 10, 5, false, some 90, 100⟩), (1, ⟨2, 10, 2, false, some 90, 150⟩),
   (2, ⟨3, 11, 6, true, none, 200⟩)]

/-- Scenario for C6: three resting asks at 100, 101, 102 (stored unsorted, as
the source keeps its slice between sorts) and a market bid of size 3, which
must consume 100 fully, then 101, and leave 102 untouched. -/
def hC6 : Heap ℤ :=
  [(0, ⟨1, 10, 2, false, some 100, 100⟩), (1, ⟨2, 10, 1, false, some 101, 110⟩),
   (2, ⟨3, 10, 1, false, some 102, 120⟩), (3, ⟨4, 11, 3, true, none, 200⟩)]

def obC6 : Book ℤ :=
  { asks := [⟨101, [1], 1⟩, ⟨100, [0], 2⟩, ⟨102, [2], 1⟩], bids := [],
    trades := [], orders := [(1, 0), (2, 1), (3, 2)] }

def msC6 : List (Match ℤ) := [⟨3, 0, 2, 100⟩, ⟨3, 1, 1, 101⟩]

def hC6post : Heap ℤ :=
  [(0, ⟨1, 10, 0, false, none, 100⟩), (1, ⟨2, 10, 0, false, none, 110⟩),
   (2, ⟨3, 10, 1, false, some 102, 120⟩), (3, ⟨4, 11, 0, true, none, 200⟩)]

def obC6post : Book ℤ :=
  { asks := [⟨102, [2], 1⟩], bids := [],
    trades := [⟨100, 2, 99, true⟩, ⟨101, 1, 99, true⟩], orders := [(1, 0), (2, 1), (3, 2)] }

/-- Scenario for C7: one resting limit bid (pointer 0, id 7, size 5 at 100),
placed on an empty book, then cancelled twice. -/
def hC7 : Heap ℤ := [(0, ⟨7, 10, 5, true, none, 100⟩)]

def hC7p : Heap ℤ := [(0, ⟨7, 10, 5, true, some 100, 100⟩)]

def obC7p : Book ℤ := { asks := [], bids := [⟨100, [0], 5⟩], trades := [], orders := [(7, 0)] }

def hC7c : Heap ℤ := [(0, ⟨7, 10, 5, true, none, 100⟩)]

def obC7c : Book ℤ := { asks := [], bids := [], trades := [], orders := [] }

/-- Scenario for C9: the book `bC9` holds a resting bid with id 5 (pointer 0);
the freshly placed bid (pointer 1) draws the same random id 5 — a collision
`rand.Intn` makes possible — so `ob.Orders[5] = o` overwrites the resting
order's index entry, and the subsequent cancel deletes the key outright. -/
def hC9 : Heap ℤ := [(0, ⟨5, 10, 2, true, some 100, 10⟩), (1, ⟨5, 11, 3, true, none, 20⟩)]

def bC9 : Book ℤ := { asks := [], bids := [⟨100, [0], 2⟩], trades := [], orders := [(5, 0)] }

def hC9p : Heap ℤ := [(0, ⟨5, 10, 2, true, some 100, 10⟩), (1, ⟨5, 11, 3, true, some 100, 20⟩)]

def obC9p : Book ℤ := { asks := [], bids := [⟨100, [0, 1], 5⟩], trades := [], orders := [(5, 1)] }

def hC9c : Heap ℤ := [(0, ⟨5, 10, 2, true, some 100, 10⟩), (1, ⟨5, 11, 3, true, none, 20⟩)]

def obC9c : Book ℤ := { asks := [], bids := [⟨100, [0], 2⟩], trades := [], orders := [] }

/-- Fresh-id scenario for the C9 round trip: as `bC9`, but the newly placed
bid (pointer 1) draws the id 6, distinct from the resting order's id 5, so
placing it and cancelling id 6 restores the original book. -/
def hC9w : Heap ℤ := [(0, ⟨5, 10, 2, true, some 100, 10⟩), (1, ⟨6, 11, 3, true, none, 20⟩)]

def bC9w : Book ℤ := { asks := [], bids := [⟨100, [0], 2⟩], trades := [], orders := [(5, 0)] }

theorem heapGet_heapSet_self (h : Heap α) (r : Nat) (d : BidData α) :
    heapGet (heapSet h r d) r = d := by
  induction h with
  | nil => simp [heapGet, heapSet]
  | cons e t ih =>
    by_cases he : e.1 = r
    · simp [heapGet, heapSet, he]
    · simp [heapGet, heapSet, he, ih]

theorem heapGet_heapSet_ne (h : Heap α) (r s : Nat) (d : BidData α) (hne : r ≠ s) :
    heapGet (heapSet h r d) s = heapGet h s := by
  induction h with
  | nil => simp [heapGet, heapSet, hne]
  | cons e t ih =>
    by_cases he : e.1 = r
    · simp [heapGet, heapSet, he, hne]
    · simp [heapGet, heapSet, he, ih]

/-- C4: for every fill of a taker `b` against a resting maker `a` (distinct
objects, as always in the source: the taker is freshly allocated and never
rests), the emitted match carries `sizeFilled = min(maker.size, taker.size)`
at the level's price, and exactly `sizeFilled` is subtracted from both
counterparties' remaining sizes, so no size is created or destroyed. -/
theorem C4_fill_conservation (h : Heap α) (l : Limit α) (a b : Nat) (hab : a ≠ b) :
    (l.fillOrder h a b).2.sizeFilled
        = min (heapGet h a).size (heapGet h b).size ∧
    (l.fillOrder h a b).2.price = l.price ∧
    (heapGet (l.fillOrder h a b).1 a).size
        = (heapGet h a).size - (l.fillOrder h a b).2.sizeFilled ∧
    (heapGet (l.fillOrder h a b).1 b).size
        = (heapGet h b).size - (l.fillOrder h a b).2.sizeFilled := by
  unfold Limit.fillOrder
  by_cases hge : (heapGet h a).size ≥ (heapGet h b).size
  · simp [hge, heapGet_heapSet_self, heapGet_heapSet_ne _ _ _ _ hab,
      heapGet_heapSet_ne _ _ _ _ (Ne.symm hab), min_eq_right hge]
  · have hle : (heapGet h a).size ≤ (heapGet h b).size := le_of_not_le hge
    simp [hge, heapGet_heapSet_self, heapGet_heapSet_ne _ _ _ _ hab,
      heapGet_heapSet_ne _ _ _ _ (Ne.symm hab), min_eq_left hle]

theorem C4_fill_conservation_witness :
    let h : Heap ℤ := [(0, ⟨1, 10, 5, false, some 90, 100⟩), (1, ⟨2, 11, 3, true, none, 200⟩)]
    let l : Limit ℤ := ⟨90, [0], 5⟩
    (l.fillOrder h 0 1).2.sizeFilled
        = min (heapGet h 0).size (heapGet h 1).size ∧
    (l.fillOrder h 0 1).2.price = l.price ∧
    (heapGet (l.fillOrder h 0 1).1 0).size
        = (heapGet h 0).size - (l.fillOrder h 0 1).2.sizeFilled ∧
    (heapGet (l.fillOrder h 0 1).1 1).size
        = (heapGet h 1).size - (l.fillOrder h 0 1).2.sizeFilled :=
  C4_fill_conservation _ _ 0 1 (by decide)

/-- C8 as stated is false: ids come from `rand.Intn(10000000)`, so a later
placement can receive a smaller id than an earlier one (monotonicity fails),
and two placements can receive the same id (distinctness fails).  Concretely,
draws 7 then 3 give ids 7 then 3, and draws 5 and 5 give equal ids. -/
theorem C8_counterexample :
    (NewBid true (1 : ℤ) 10 7 100).id > (NewBid true (1 : ℤ) 10 3 101).id ∧
    (NewBid true (1 : ℤ) 10 5 100).id = (NewBid true (1 : ℤ) 11 5 101).id := by
  decide

/-- C8 amended: each accepted placement is assigned the id
`int64(rand.Intn(10000000))` — a function of the random draw alone, lying in
`[0, 10000000)`; ids are neither monotone nor guaranteed distinct. -/
theorem C8_random_ids (bid : Bool) (size : α) (userId : Int) (randVal : Nat) (now : Int) :
    (NewBid bid size userId randVal now).id = Int.ofNat (randVal % 10000000) ∧
    0 ≤ (NewBid bid size userId randVal now).id ∧
    (NewBid bid size userId randVal now).id < 10000000 := by
  refine ⟨rfl, Int.ofNat_nonneg _, ?_⟩
  show Int.ofNat (randVal % 10000000) < 10000000
  rw [Int.ofNat_eq_natCast]
  omega

theorem swapRemoveAux_no_match {β : Type} [Inhabited β] (p : β → Bool) :
    ∀ (fuel : Nat) (l : List β) (i : Nat),
      (∀ x ∈ l.drop i, p x = false) →
      swapRemoveAux p fuel l i = l := by
  intro fuel
  induction fuel with
  | zero => intro l i _; rfl
  | succ fuel ih =>
    intro l i hno
    unfold swapRemoveAux
    by_cases hlt : i < l.length
    · have hdrop := List.drop_eq_getElem_cons hlt
      have hhead : p l[i] = false :=
        hno _ (by rw [hdrop]; exact List.mem_cons_self _ _)
      rw [dif_pos hlt, if_neg (by simp [List.get_eq_getElem, hhead]), ih l (i + 1)
        (fun x hx => hno x (by rw [hdrop]; exact List.mem_cons_of_mem _ hx))]
    · rw [dif_neg hlt]

theorem swapRemoveAux_unique {β : Type} [Inhabited β] (p : β → Bool)
    (xs : List β) (y : β) (ys : List β)
    (hy : p y = true) (hxs : ∀ x ∈ xs, p x = false) (hys : ∀ x ∈ ys, p x = false) :
    ∀ (n i : Nat), i ≤ xs.length → xs.length - i = n →
      swapRemoveAux p ((xs ++ y :: ys).length - i) (xs ++ y :: ys) i
        = xs ++ rotLast ys := by
  intro n
  induction n with
  | zero =>
    intro i hi hfuel
    have hieq : i = xs.length := by omega
    subst hieq
    have hlen : (xs ++ y :: ys).length = xs.length + (ys.length + 1) := by
      simp [List.length_append]
    have hfe : (xs ++ y :: ys).length - xs.length = ys.length + 1 := by omega
    rw [hfe]
    unfold swapRemoveAux
    have hlt : xs.length < (xs ++ y :: ys).length := by omega
    rw [dif_pos hlt]
    have hget : (xs ++ y :: ys).get ⟨xs.length, hlt⟩ = y := by
      simp [List.get_eq_getElem, List.getElem_append_right (le_refl xs.length)]
    rw [hget, if_pos hy]
    rcases List.eq_nil_or_concat ys with rfl | ⟨zs, z, rfl⟩
    · have hlast : (xs ++ [y]).getLast?.getD default = y := by
        simp [List.getLast?_concat]
      rw [hlast]
      have hset : (xs ++ [y]).set xs.length y = xs ++ [y] := by
        rw [List.set_append]
        simp
      rw [hset, List.dropLast_concat]
      have hbase : swapRemoveAux p 0 xs (xs.length + 1) = xs := rfl
      simp [rotLast, hbase]
    · rw [List.concat_eq_append]
      have hassoc : xs ++ y :: (zs ++ [z]) = (xs ++ y :: zs) ++ [z] := by simp
      have hlast : ((xs ++ y :: (zs ++ [z])).getLast?).getD default = z := by
        rw [hassoc, List.getLast?_concat]
        rfl
      rw [hlast]
      have hset : (xs ++ y :: (zs ++ [z])).set xs.length z = xs ++ z :: (zs ++ [z]) := by
        rw [List.set_append]
        simp
      rw [hset]
      have hdecomp : xs ++ z :: (zs ++ [z]) = (xs ++ z :: zs) ++ [z] := by simp
      rw [hdecomp, List.dropLast_concat]
      have hnm : swapRemoveAux p (zs ++ [z]).length (xs ++ z :: zs) (xs.length + 1)
          = xs ++ z :: zs := by
        apply swapRemoveAux_no_match
        have hd : (xs ++ z :: zs).drop (xs.length + 1) = zs := by
          have h2 : xs ++ z :: zs = (xs ++ [z]) ++ zs := by simp
          rw [h2, List.drop_left' (by simp)]
        rw [hd]
        intro x hx
        exact hys x (by simp [hx])
      rw [hnm]
      have hrot : rotLast (zs ++ [z]) = z :: zs := by
        simp [rotLast, List.getLast?_concat, List.dropLast_concat]
      rw [hrot]
  | succ n ihn =>
    intro i hi hfuel
    have hlt2 : i < xs.length := by omega
    have hlen : (xs ++ y :: ys).length = xs.length + (ys.length + 1) := by
      simp [List.length_append]
    have hfe : (xs ++ y :: ys).length - i = ((xs ++ y :: ys).length - (i + 1)) + 1 := by
      omega
    rw [hfe]
    unfold swapRemoveAux
    have hlt : i < (xs ++ y :: ys).length := by omega
    rw [dif_pos hlt]
    have hget : (xs ++ y :: ys).get ⟨i, hlt⟩ = xs.get ⟨i, hlt2⟩ := by
      simp [List.get_eq_getElem, List.getElem_append_left hlt2]
    have hhead : p xs[i] = false := by
      have hh := hxs _ (List.get_mem xs i hlt2)
      simpa [List.get_eq_getElem] using hh
    rw [hget, if_neg (by simp [List.get_eq_getElem, hhead])]
    exact ihn (i + 1) (by omega) (by omega)

theorem swapRemoveLoop_no_match {β : Type} [Inhabited β] (p : β → Bool) (l : List β)
    (hno : ∀ x ∈ l, p x = false) :
    swapRemoveLoop p l 0 = l :=
  swapRemoveAux_no_match p _ l 0 (fun x hx => hno x (List.mem_of_mem_drop hx))

theorem swapRemoveLoop_unique {β : Type} [Inhabited β] (p : β → Bool)
    (xs : List β) (y : β) (ys : List β)
    (hy : p y = true) (hxs : ∀ x ∈ xs, p x = false) (hys : ∀ x ∈ ys, p x = false) :
    swapRemoveLoop p (xs ++ y :: ys) 0 = xs ++ rotLast ys := by
  simpa [swapRemoveLoop] using
    swapRemoveAux_unique p xs y ys hy hxs hys xs.length 0 (Nat.zero_le _) rfl

theorem rotLast_perm {β : Type} [Inhabited β] (ys : List β) :
    List.Perm (rotLast ys) ys := by
  rcases List.eq_nil_or_concat ys with rfl | ⟨zs, z, rfl⟩
  · simp [rotLast]
  · rw [List.concat_eq_append]
    have hrot : rotLast (zs ++ [z]) = z :: zs := by
      simp [rotLast, List.getLast?_concat, List.dropLast_concat]
    rw [hrot]
    exact (List.perm_append_singleton _ _).symm

theorem sum_replaceLevel (ls : List (Limit α)) (p : α) (l l1 : Limit α)
    (hfind : ls.find? (fun x => x.price == p) = some l) :
    ((replaceLevel ls p l1).map Limit.totalVolume).sum
      = (ls.map Limit.totalVolume).sum - l.totalVolume + l1.totalVolume := by
  induction ls with
  | nil => simp at hfind
  | cons x rest ih =>
    by_cases hx : x.price = p
    · rw [List.find?_cons_of_pos _ (by simpa using hx)] at hfind
      obtain rfl : x = l := by simpa using hfind
      simp [replaceLevel, hx]
      ring
    · rw [List.find?_cons_of_neg _ (by simpa using hx)] at hfind
      simp [replaceLevel, hx, ih hfind]
      ring

theorem mem_mapInsert_self (m : List (Int × Nat)) (k : Int) (v : Nat) :
    k ∈ (mapInsert m k v).map Prod.fst := by
  unfold mapInsert
  by_cases hany : m.any (fun e => e.1 == k)
  · rw [if_pos hany]
    obtain ⟨e, hem, hek⟩ := List.any_eq_true.mp hany
    have hkv : (k, v) ∈ m.map (fun e => if e.1 = k then (k, v) else e) := by
      refine List.mem_map.mpr ⟨e, hem, ?_⟩
      simp only [beq_iff_eq] at hek
      simp [hek]
    simpa using List.mem_map_of_mem Prod.fst hkv
  · rw [if_neg hany]
    simp

/-- C1 amended: `PlaceLimitOrder` performs no matching whatsoever.  For every
book, heap, price and order: the trade log is unchanged, the opposing side is
unchanged, the taker's own side gains exactly the order's full size (nothing
is consumed from anybody), and the order's id enters the index. -/
theorem C1_place_limit_never_matches (h : Heap α) (ob : Book α) (price : α) (r : Nat) :
    (ob.PlaceLimitOrder h price r).2.trades = ob.trades ∧
    (if (heapGet h r).bid
      then (ob.PlaceLimitOrder h price r).2.asks = ob.asks
      else (ob.PlaceLimitOrder h price r).2.bids = ob.bids) ∧
    (if (heapGet h r).bid
      then (ob.PlaceLimitOrder h price r).2.BidTotalVolume
            = ob.BidTotalVolume + (heapGet h r).size
      else (ob.PlaceLimitOrder h price r).2.AskTotalVolume
            = ob.AskTotalVolume + (heapGet h r).size) ∧
    (heapGet h r).id ∈ (ob.PlaceLimitOrder h price r).2.indexIds := by
  unfold Book.PlaceLimitOrder
  by_cases hb : (heapGet h r).bid
  · cases hfind : ob.bids.find? (fun l => l.price == price) with
    | some l =>
      simp only [hb, if_true, hfind]
      refine ⟨trivial, trivial, ?_, mem_mapInsert_self _ _ _⟩
      show ((replaceLevel ob.bids price (l.AddOrder h r).2).map Limit.totalVolume).sum
        = (ob.bids.map Limit.totalVolume).sum + (heapGet h r).size
      rw [sum_replaceLevel _ _ _ _ hfind]
      unfold Limit.AddOrder
      ring
    | none =>
      simp only [hb, if_true, hfind]
      refine ⟨trivial, trivial, ?_, mem_mapInsert_self _ _ _⟩
      show (((ob.bids ++ [((NewLimit price).AddOrder h r).2]).map Limit.totalVolume).sum : α)
        = (ob.bids.map Limit.totalVolume).sum + (heapGet h r).size
      unfold Limit.AddOrder NewLimit
      simp
  · have hb2 : (heapGet h r).bid = false := by simpa using hb
    cases hfind : ob.asks.find? (fun l => l.price == price) with
    | some l =>
      simp only [hb2, Bool.false_eq_true, if_false, hfind]
      refine ⟨trivial, trivial, ?_, mem_mapInsert_self _ _ _⟩
      show ((replaceLevel ob.asks price (l.AddOrder h r).2).map Limit.totalVolume).sum
        = (ob.asks.map Limit.totalVolume).sum + (heapGet h r).size
      rw [sum_replaceLevel _ _ _ _ hfind]
      unfold Limit.AddOrder
      ring
    | none =>
      simp only [hb2, Bool.false_eq_true, if_false, hfind]
      refine ⟨trivial, trivial, ?_, mem_mapInsert_self _ _ _⟩
      show (((ob.asks ++ [((NewLimit price).AddOrder h r).2]).map Limit.totalVolume).sum : α)
        = (ob.asks.map Limit.totalVolume).sum + (heapGet h r).size
      unfold Limit.AddOrder NewLimit
      simp

/-- C1 is false on the code: a limit bid at 100 against a best ask of 90 is
marketable, yet `PlaceLimitOrder` consumes nothing — the opposing ask level
keeps its full size 5, no trade is logged, and the taker rests with its full
size 3 on its own side (instead of the zero remainder the claim requires). -/
theorem C1_counterexample :
    (obC1.PlaceLimitOrder hC1 100 1).2.asks = obC1.asks ∧
    (obC1.PlaceLimitOrder hC1 100 1).2.trades = [] ∧
    (obC1.PlaceLimitOrder hC1 100 1).2.bids = [⟨100, [1], 3⟩] ∧
    heapGet (obC1.PlaceLimitOrder hC1 100 1).1 0 = heapGet hC1 0 := by
  decide

/-- C2: when a market order's size exceeds the opposing side's total volume
the source executes `panic(...)` — modelled as the `insufficientVolume`
crash — instead of returning an `InsufficientLiquidity` error value.  The
check precedes every mutation, so the book is indeed unchanged, but the call
never returns normally. -/
theorem C2_insufficient_liquidity_panics (h : Heap α) (ob : Book α) (r : Nat) (now : Int)
    (hvol : (heapGet h r).size >
      (if (heapGet h r).bid then ob.AskTotalVolume else ob.BidTotalVolume)) :
    ob.PlaceMarketOrder h r now = .error .insufficientVolume := by
  unfold Book.PlaceMarketOrder
  by_cases hb : (heapGet h r).bid
  · rw [if_pos hb] at hvol
    simp [hb, hvol]
  · rw [if_neg hb] at hvol
    simp [hb, hvol]

theorem C2_insufficient_liquidity_panics_witness :
    ((heapGet [(1, (⟨2, 11, 1, true, none, 200⟩ : BidData ℤ))] 1).size >
      (if (heapGet [(1, (⟨2, 11, 1, true, none, 200⟩ : BidData ℤ))] 1).bid
        then Book.AskTotalVolume NewBookBid else Book.BidTotalVolume NewBookBid)) ∧
    Book.PlaceMarketOrder NewBookBid [(1, (⟨2, 11, 1, true, none, 200⟩ : BidData ℤ))] 1 99
      = .error .insufficientVolume :=
  ⟨by decide, C2_insufficient_liquidity_panics _ _ 1 99 (by decide)⟩

/-- C3 is false on the code: after the market bid fully fills the resting ask
with id 1, the ask is gone from every price level, yet id 1 is still present
in the `Orders` index — `Limit.Fill` and `Limit.DeleteOrder` never touch the
index, so the claimed "present iff resting" equivalence breaks. -/
theorem C3_counterexample :
    obC3.PlaceMarketOrder hC3 1 99 = .ok ([⟨1, 0, 5, 90⟩], hC3post, obC3post) ∧
    (1 : Int) ∈ obC3post.indexIds ∧
    obC3post.restingIds hC3post = [] := by
  decide

/-- C7 is false on the code: cancelling a resting order succeeds, but a
second cancel of the same id reads `ob.Orders[id]` as a nil pointer and
`CancelOrder` dereferences it — a nil-pointer panic, not a returned
`NotFound` error (no `NotFound` value exists anywhere in the source). -/
theorem C7_counterexample :
    Book.PlaceLimitOrder NewBookBid hC7 100 0 = (hC7p, obC7p) ∧
    CancelBid obC7p hC7p 7 = .ok (hC7c, obC7c) ∧
    CancelBid obC7c hC7c 7 = .error .nilDeref := by
  decide

/-- C9 is false on the code: ids are random, so a placement can draw the id
of an order already resting (here id 5).  `ob.Orders[5] = o` then overwrites
the old index entry, and the cancel deletes the key, leaving a book that
differs from the pre-placement snapshot (the old order lost its index
entry). -/
theorem C9_counterexample :
    bC9.PlaceLimitOrder hC9 100 1 = (hC9p, obC9p) ∧
    CancelBid obC9p hC9p 5 = .ok (hC9c, obC9c) ∧
    obC9c ≠ bC9 := by
  decide

theorem fillOrder_spec (h : Heap α) (l : Limit α) (a b : Nat) (hab : a ≠ b) :
    (l.fillOrder h a b).2.sizeFilled
        = min (heapGet h a).size (heapGet h b).size ∧
    (l.fillOrder h a b).2.price = l.price ∧
    (heapGet (l.fillOrder h a b).1 a).size
        = (heapGet h a).size - (l.fillOrder h a b).2.sizeFilled ∧
    (heapGet (l.fillOrder h a b).1 b).size
        = (heapGet h b).size - (l.fillOrder h a b).2.sizeFilled ∧
    (∀ x, x ≠ a → x ≠ b → heapGet (l.fillOrder h a b).1 x = heapGet h x) := by
  unfold Limit.fillOrder
  by_cases hge : (heapGet h a).size ≥ (heapGet h b).size
  · simp only [hge, if_true]
    refine ⟨?_, trivial, ?_, ?_, ?_⟩
    · simp [heapGet_heapSet_self, heapGet_heapSet_ne _ _ _ _ hab, min_eq_right hge]
    · simp [heapGet_heapSet_self, heapGet_heapSet_ne _ _ _ _ hab,
        heapGet_heapSet_ne _ _ _ _ (Ne.symm hab)]
    · simp [heapGet_heapSet_self, heapGet_heapSet_ne _ _ _ _ hab]
    · intro x hxa hxb
      rw [heapGet_heapSet_ne _ _ _ _ (Ne.symm hxb), heapGet_heapSet_ne _ _ _ _ (Ne.symm hxa)]
  · have hle : (heapGet h a).size ≤ (heapGet h b).size := le_of_not_le hge
    simp only [hge, if_false]
    refine ⟨?_, trivial, ?_, ?_, ?_⟩
    · simp [heapGet_heapSet_self, heapGet_heapSet_ne _ _ _ _ (Ne.symm hab), min_eq_left hle]
    · simp [heapGet_heapSet_self, heapGet_heapSet_ne _ _ _ _ (Ne.symm hab)]
    · simp [heapGet_heapSet_self, heapGet_heapSet_ne _ _ _ _ (Ne.symm hab),
        heapGet_heapSet_ne _ _ _ _ hab]
    · intro x hxa hxb
      rw [heapGet_heapSet_ne _ _ _ _ (Ne.symm hxa), heapGet_heapSet_ne _ _ _ _ (Ne.symm hxb)]

theorem heapGet_size_heapSet_limitPrice (h : Heap α) (r x : Nat) (q : Option α) :
    (heapGet (heapSet h r { heapGet h r with limitPrice := q }) x).size
      = (heapGet h x).size := by
  by_cases hx : r = x
  · subst hx
    rw [heapGet_heapSet_self]
  · rw [heapGet_heapSet_ne _ _ _ _ hx]

theorem levelSum_congr (h1 h2 : Heap α) (l : Limit α)
    (hsz : ∀ x ∈ l.orders, (heapGet h2 x).size = (heapGet h1 x).size) :
    levelSum h2 l = levelSum h1 l := by
  unfold levelSum
  exact congrArg List.sum (List.map_congr_left hsz)

theorem levelSum_perm (h : Heap α) (l1 l2 : Limit α)
    (hperm : List.Perm l1.orders l2.orders) :
    levelSum h l1 = levelSum h l2 := by
  unfold levelSum
  exact (hperm.map _).sum_eq

theorem DeleteOrder_spec (l : Limit α) (h : Heap α) (d : Nat)
    (hnodup : l.orders.Nodup) (hmem : d ∈ l.orders) :
    List.Perm (l.DeleteOrder h d).2.orders (l.orders.erase d) ∧
    (l.DeleteOrder h d).2.price = l.price ∧
    (l.DeleteOrder h d).2.totalVolume = l.totalVolume - (heapGet h d).size ∧
    (∀ x, (heapGet (l.DeleteOrder h d).1 x).size = (heapGet h x).size) ∧
    (∀ x, x ≠ d → heapGet (l.DeleteOrder h d).1 x = heapGet h x) := by
  obtain ⟨xs, ys, hdec⟩ := List.append_of_mem hmem
  have hnd : xs.Nodup ∧ (d :: ys).Nodup ∧ xs.Disjoint (d :: ys) := by
    rw [hdec, List.nodup_append] at hnodup
    exact hnodup
  have hdxs : d ∉ xs := fun hx => hnd.2.2 hx (List.mem_cons_self _ _)
  have hdys : d ∉ ys := fun hy => (List.nodup_cons.mp hnd.2.1).1 hy
  have hloop : swapRemoveLoop (fun x => x == d) l.orders 0 = xs ++ rotLast ys := by
    rw [hdec]
    refine swapRemoveLoop_unique _ xs d ys (by simp) ?_ ?_
    · intro x hx
      simp only [beq_eq_false_iff_ne]
      intro hxd
      exact hdxs (hxd ▸ hx)
    · intro x hx
      simp only [beq_eq_false_iff_ne]
      intro hxd
      exact hdys (hxd ▸ hx)
  have herase : l.orders.erase d = xs ++ ys := by
    rw [hdec, List.erase_append_right _ hdxs, List.erase_cons_head]
  refine ⟨?_, rfl, rfl, ?_, ?_⟩
  · show List.Perm (List.insertionSort _ (swapRemoveLoop (fun x => x == d) l.orders 0))
      (l.orders.erase d)
    rw [hloop, herase]
    exact (List.perm_insertionSort _ _).trans ((rotLast_perm ys).append_left xs)
  · intro x
    exact heapGet_size_heapSet_limitPrice h d x none
  · intro x hx
    exact heapGet_heapSet_ne _ _ _ _ (Ne.symm hx)

theorem fillLoop_basic (l : Limit α) (taker : Nat) :
    ∀ (refs : List Nat) (h : Heap α), refs.Nodup → taker ∉ refs →
      ((refs.map (fun x => (heapGet (l.fillLoop h refs taker).1 x).size)).sum
          = (refs.map (fun x => (heapGet h x).size)).sum
            - ((l.fillLoop h refs taker).2.1.map Match.sizeFilled).sum) ∧
      ((l.fillLoop h refs taker).2.2.Sublist refs) ∧
      (∀ x ∈ (l.fillLoop h refs taker).2.2,
          (heapGet (l.fillLoop h refs taker).1 x).size = 0) ∧
      (∀ x, x ∉ refs → x ≠ taker →
          heapGet (l.fillLoop h refs taker).1 x = heapGet h x) ∧
      (∀ m ∈ (l.fillLoop h refs taker).2.1, m.price = l.price) := by
  intro refs
  induction refs with
  | nil =>
    intro h _ _
    refine ⟨by simp [Limit.fillLoop], by simp [Limit.fillLoop], ?_, ?_, ?_⟩
    · intro x hx
      simp [Limit.fillLoop] at hx
    · intro x _ _
      rfl
    · intro m hm
      simp [Limit.fillLoop] at hm
  | cons r rest ih =>
    intro h hnodup htaker
    have hr_taker : r ≠ taker := fun he => htaker (he ▸ List.mem_cons_self r rest)
    have hnod_rest : rest.Nodup := (List.nodup_cons.mp hnodup).2
    have hr_rest : r ∉ rest := (List.nodup_cons.mp hnodup).1
    have htk_rest : taker ∉ rest := fun ht => htaker (List.mem_cons_of_mem _ ht)
    by_cases hz : (heapGet h taker).size = 0
    · simp only [Limit.fillLoop, hz, if_true]
      refine ⟨by simp, List.nil_sublist _, ?_, fun x _ _ => trivial, ?_⟩
      · intro x hx
        simp at hx
      · intro m hm
        simp at hm
    · obtain ⟨hmin, hprice, hszr, hsztk, huntouched⟩ := fillOrder_spec h l r taker hr_taker
      obtain ⟨iha, ihsub, ihzero, ihout, ihprice⟩ :=
        ih (l.fillOrder h r taker).1 hnod_rest htk_rest
      simp only [Limit.fillLoop]
      rw [if_neg hz]
      refine ⟨?_, ?_, ?_, ?_, ?_⟩
      · simp only [List.map_cons, List.sum_cons]
        have h1 : (heapGet (l.fillLoop (l.fillOrder h r taker).1 rest taker).1 r).size
            = (heapGet h r).size - (l.fillOrder h r taker).2.sizeFilled := by
          rw [ihout r hr_rest hr_taker, hszr]
        have h2 : (rest.map (fun x =>
              (heapGet (l.fillLoop (l.fillOrder h r taker).1 rest taker).1 x).size)).sum
            = (rest.map (fun x => (heapGet h x).size)).sum
              - ((l.fillLoop (l.fillOrder h r taker).1 rest taker).2.1.map
                  Match.sizeFilled).sum := by
          rw [iha]
          congr 1
          apply congrArg List.sum
          apply List.map_congr_left
          intro x hx
          rw [huntouched x (fun he => hr_rest (he ▸ hx)) (fun he => htk_rest (he ▸ hx))]
        rw [h1, h2]
        ring
      · by_cases hdel : (heapGet (l.fillOrder h r taker).1 r).size = 0
        · rw [if_pos hdel]
          exact ihsub.cons₂ r
        · rw [if_neg hdel]
          exact ihsub.cons r
      · by_cases hdel : (heapGet (l.fillOrder h r taker).1 r).size = 0
        · rw [if_pos hdel]
          intro x hx
          rcases List.mem_cons.mp hx with rfl | hx2
          · rw [ihout x hr_rest hr_taker]
            exact hdel
          · exact ihzero x hx2
        · rw [if_neg hdel]
          exact ihzero
      · intro x hx hxt
        have hxr : x ≠ r := fun he => hx (he ▸ List.mem_cons_self r rest)
        have hxrest : x ∉ rest := fun hh => hx (List.mem_cons_of_mem _ hh)
        rw [ihout x hxrest hxt, huntouched x hxr hxt]
      · intro m hm
        rcases List.mem_cons.mp hm with rfl | hm2
        · exact hprice
        · exact ihprice m hm2

theorem deleteAll_spec :
    ∀ (dels : List Nat) (h : Heap α) (lim : Limit α),
      lim.orders.Nodup → dels.Nodup → (∀ x ∈ dels, x ∈ lim.orders) →
      (∀ x ∈ dels, (heapGet h x).size = 0) →
      List.Perm (dels.foldl (fun acc r => acc.2.DeleteOrder acc.1 r) (h, lim)).2.orders
          (lim.orders.diff dels) ∧
      (dels.foldl (fun acc r => acc.2.DeleteOrder acc.1 r) (h, lim)).2.price = lim.price ∧
      (∀ x, (heapGet (dels.foldl (fun acc r => acc.2.DeleteOrder acc.1 r) (h, lim)).1 x).size
          = (heapGet h x).size) ∧
      (∀ x, x ∉ dels →
          heapGet (dels.foldl (fun acc r => acc.2.DeleteOrder acc.1 r) (h, lim)).1 x
            = heapGet h x) ∧
      (volOk h lim →
        volOk (dels.foldl (fun acc r => acc.2.DeleteOrder acc.1 r) (h, lim)).1
          (dels.foldl (fun acc r => acc.2.DeleteOrder acc.1 r) (h, lim)).2) := by
  intro dels
  induction dels with
  | nil =>
    intro h lim hnod hdnod hsub hzero
    exact ⟨by simp, rfl, fun x => rfl, fun x _ => rfl, fun hv => hv⟩
  | cons d ds ih =>
    intro h lim hnod hdnod hsub hzero
    have hdmem : d ∈ lim.orders := hsub d (List.mem_cons_self _ _)
    obtain ⟨sperm, sprice, stv, ssize, suntouched⟩ := DeleteOrder_spec lim h d hnod hdmem
    have hd_ds : d ∉ ds := (List.nodup_cons.mp hdnod).1
    have hnod1 : (lim.DeleteOrder h d).2.orders.Nodup :=
      sperm.nodup_iff.mpr (hnod.erase d)
    have hdnod1 : ds.Nodup := (List.nodup_cons.mp hdnod).2
    have hsub1 : ∀ x ∈ ds, x ∈ (lim.DeleteOrder h d).2.orders := by
      intro x hx
      have hxd : x ≠ d := fun he => hd_ds (he ▸ hx)
      exact sperm.mem_iff.mpr
        ((List.mem_erase_of_ne hxd).mpr (hsub x (List.mem_cons_of_mem _ hx)))
    have hzero1 : ∀ x ∈ ds, (heapGet (lim.DeleteOrder h d).1 x).size = 0 := by
      intro x hx
      rw [ssize x]
      exact hzero x (List.mem_cons_of_mem _ hx)
    obtain ⟨iperm, iprice, isize, iuntouched, ivol⟩ :=
      ih (lim.DeleteOrder h d).1 (lim.DeleteOrder h d).2 hnod1 hdnod1 hsub1 hzero1
    simp only [List.foldl_cons]
    refine ⟨?_, ?_, ?_, ?_, ?_⟩
    · refine iperm.trans ?_
      rw [List.diff_cons]
      exact sperm.diff_right ds
    · rw [iprice, sprice]
    · intro x
      rw [isize x, ssize x]
    · intro x hx
      have hxd : x ≠ d := fun he => hx (he ▸ List.mem_cons_self _ _)
      have hxds : x ∉ ds := fun hh => hx (List.mem_cons_of_mem _ hh)
      rw [iuntouched x hxds, suntouched x hxd]
    · intro hv
      apply ivol
      unfold volOk at hv ⊢
      rw [stv, hzero d (List.mem_cons_self _ _), sub_zero, hv]
      have hsum : levelSum (lim.DeleteOrder h d).1 (lim.DeleteOrder h d).2
          = levelSum h (lim.DeleteOrder h d).2 := by
        apply levelSum_congr
        intro x _
        exact ssize x
      rw [hsum]
      unfold levelSum
      rw [(sperm.map _).sum_eq]
      have hcons := List.perm_cons_erase hdmem
      have : ((lim.orders.map (fun r => (heapGet h r).size))).sum
          = (heapGet h d).size + ((lim.orders.erase d).map (fun r => (heapGet h r).size)).sum := by
        rw [(hcons.map _).sum_eq]
        simp
      rw [this, hzero d (List.mem_cons_self _ _), zero_add]

theorem Fill_basic (l : Limit α) (h : Heap α) (taker : Nat)
    (hnod : l.orders.Nodup) (htk : taker ∉ l.orders) :
    (l.Fill h taker).2.1.price = l.price ∧
    (∀ m ∈ (l.Fill h taker).2.2, m.price = l.price) ∧
    (∀ x, x ∉ l.orders → x ≠ taker → heapGet (l.Fill h taker).1 x = heapGet h x) ∧
    (volOk h l → volOk (l.Fill h taker).1 (l.Fill h taker).2.1) ∧
    List.Perm (l.Fill h taker).2.1.orders
        (l.orders.diff (l.fillLoop h l.orders taker).2.2) := by
  obtain ⟨fa, fsub, fzero, fout, fprice⟩ := fillLoop_basic l taker l.orders h hnod htk
  have hdnod : (l.fillLoop h l.orders taker).2.2.Nodup := fsub.nodup hnod
  have hdsub : ∀ x ∈ (l.fillLoop h l.orders taker).2.2, x ∈ l.orders :=
    fun x hx => fsub.subset hx
  obtain ⟨dperm, dprice, dsize, duntouch, dvol⟩ :=
    deleteAll_spec (l.fillLoop h l.orders taker).2.2 (l.fillLoop h l.orders taker).1
      { l with totalVolume :=
          l.totalVolume - ((l.fillLoop h l.orders taker).2.1.map Match.sizeFilled).sum }
      hnod hdnod hdsub fzero
  unfold Limit.Fill
  refine ⟨dprice, fprice, ?_, ?_, dperm⟩
  · intro x hx hxt
    have hxdels : x ∉ (l.fillLoop h l.orders taker).2.2 := fun hd => hx (hdsub x hd)
    rw [duntouch x hxdels, fout x hx hxt]
  · intro hv
    apply dvol
    unfold volOk levelSum at hv ⊢
    rw [fa, ← hv]

/-- C5: the cached `TotalVolume` of a price level equals the sum of the
remaining sizes of the orders resting at that level, and this identity is
preserved by `AddOrder` (add), `DeleteOrder` (delete, for an order actually
resting on the level), and `Fill` (partial or full fills, including the
removal of fully filled makers).  The side conditions — the level holds each
order once and the taker does not rest on the level it is matching against —
hold on every state the source can reach. -/
theorem C5_volume_invariant (h : Heap α) (l : Limit α) (radd rdel taker : Nat)
    (hvol : volOk h l) (hnodup : l.orders.Nodup)
    (hdel : rdel ∈ l.orders) (htaker : taker ∉ l.orders) :
    volOk (l.AddOrder h radd).1 (l.AddOrder h radd).2 ∧
    volOk (l.DeleteOrder h rdel).1 (l.DeleteOrder h rdel).2 ∧
    volOk (l.Fill h taker).1 (l.Fill h taker).2.1 := by
  refine ⟨?_, ?_, ?_⟩
  · unfold volOk levelSum at hvol ⊢
    unfold Limit.AddOrder
    have hcong : ((l.orders ++ [radd]).map (fun r =>
          (heapGet (heapSet h radd { heapGet h radd with limitPrice := some l.price }) r).size))
        = ((l.orders ++ [radd]).map (fun r => (heapGet h r).size)) := by
      apply List.map_congr_left
      intro x _
      exact heapGet_size_heapSet_limitPrice h radd x _
    show l.totalVolume + (heapGet h radd).size = _
    rw [hcong, List.map_append, List.sum_append, ← hvol]
    simp
  · obtain ⟨sperm, _, stv, ssize, _⟩ := DeleteOrder_spec l h rdel hnodup hdel
    unfold volOk at hvol ⊢
    rw [stv, hvol]
    have hsum : levelSum (l.DeleteOrder h rdel).1 (l.DeleteOrder h rdel).2
        = levelSum h (l.DeleteOrder h rdel).2 := by
      apply levelSum_congr
      intro x _
      exact ssize x
    rw [hsum]
    unfold levelSum
    rw [(sperm.map _).sum_eq]
    have hcons := List.perm_cons_erase hdel
    have hsplit : (l.orders.map (fun r => (heapGet h r).size)).sum
        = (heapGet h rdel).size
          + ((l.orders.erase rdel).map (fun r => (heapGet h r).size)).sum := by
      rw [(hcons.map _).sum_eq]
      simp
    rw [hsplit]
    ring
  · exact (Fill_basic l h taker hnodup htaker).2.2.2.1 hvol

theorem C5_volume_invariant_witness :
    volOk (Limit.AddOrder ⟨90, [0, 1], 7⟩ hC5 3).1 (Limit.AddOrder ⟨90, [0, 1], 7⟩ hC5 3).2 ∧
    volOk (Limit.DeleteOrder ⟨90, [0, 1], 7⟩ hC5 0).1
      (Limit.DeleteOrder ⟨90, [0, 1], 7⟩ hC5 0).2 ∧
    volOk (Limit.Fill ⟨90, [0, 1], 7⟩ hC5 2).1 (Limit.Fill ⟨90, [0, 1], 7⟩ hC5 2).2.1 :=
  C5_volume_invariant hC5 ⟨90, [0, 1], 7⟩ 3 0 2
    (by unfold volOk levelSum; decide) (by decide) (by decide) (by decide)

theorem diff_self_nil {β : Type} [DecidableEq β] : ∀ l : List β, l.diff l = [] := by
  intro l
  induction l with
  | nil => rfl
  | cons a l ih =>
    rw [List.diff_cons, List.erase_cons_head]
    exact ih

theorem fillLoop_greedy (l : Limit α) (taker : Nat) :
    ∀ (refs : List Nat) (h : Heap α), refs.Nodup → taker ∉ refs →
      (∀ x, 0 ≤ (heapGet h x).size) →
      (∀ x, 0 ≤ (heapGet (l.fillLoop h refs taker).1 x).size) ∧
      ((heapGet (l.fillLoop h refs taker).1 taker).size ≤ (heapGet h taker).size) ∧
      ((heapGet (l.fillLoop h refs taker).1 taker).size ≠ 0 →
        (l.fillLoop h refs taker).2.2 = refs) := by
  intro refs
  induction refs with
  | nil =>
    intro h _ _ hnn
    exact ⟨hnn, le_refl _, fun _ => rfl⟩
  | cons r rest ih =>
    intro h hnodup htaker hnn
    have hr_taker : r ≠ taker := fun he => htaker (he ▸ List.mem_cons_self r rest)
    have hnod_rest : rest.Nodup := (List.nodup_cons.mp hnodup).2
    have htk_rest : taker ∉ rest := fun ht => htaker (List.mem_cons_of_mem _ ht)
    by_cases hz : (heapGet h taker).size = 0
    · simp only [Limit.fillLoop, hz, if_true]
      exact ⟨hnn, le_refl _, fun hne => absurd rfl hne⟩
    · obtain ⟨hmin, hprice, hszr, hsztk, huntouched⟩ := fillOrder_spec h l r taker hr_taker
      have hminnn : 0 ≤ (l.fillOrder h r taker).2.sizeFilled := by
        rw [hmin]
        exact le_min (hnn r) (hnn taker)
      have hnn1 : ∀ x, 0 ≤ (heapGet (l.fillOrder h r taker).1 x).size := by
        intro x
        by_cases hxr : x = r
        · subst hxr
          rw [hszr, hmin]
          exact sub_nonneg.mpr (min_le_left _ _)
        · by_cases hxt : x = taker
          · subst hxt
            rw [hsztk, hmin]
            exact sub_nonneg.mpr (min_le_right _ _)
          · rw [huntouched x hxr hxt]
            exact hnn x
      obtain ⟨ihnn, ihle, ihdels⟩ := ih (l.fillOrder h r taker).1 hnod_rest htk_rest hnn1
      simp only [Limit.fillLoop]
      rw [if_neg hz]
      refine ⟨ihnn, ?_, ?_⟩
      · refine le_trans ihle ?_
        rw [hsztk]
        exact sub_le_self _ hminnn
      · intro hne
        have hstep_ne : (heapGet (l.fillOrder h r taker).1 taker).size ≠ 0 := by
          intro h0
          have h1 := ihle
          rw [h0] at h1
          exact hne (le_antisymm h1 (ihnn taker))
        have hfa : (l.fillOrder h r taker).2.sizeFilled = (heapGet h r).size := by
          rcases min_choice (heapGet h r).size (heapGet h taker).size with hc | hc
          · rw [hmin, hc]
          · exfalso
            apply hstep_ne
            rw [hsztk, hmin, hc]
            ring
        have hr0 : (heapGet (l.fillOrder h r taker).1 r).size = 0 := by
          rw [hszr, hfa]
          ring
        rw [if_pos hr0, ihdels hne]

theorem fillLoop_taker_filled (l : Limit α) (h : Heap α) (refs : List Nat) (taker : Nat)
    (hz : (heapGet h taker).size = 0) :
    l.fillLoop h refs taker = (h, [], []) := by
  cases refs with
  | nil => rfl
  | cons r rest => simp [Limit.fillLoop, hz]

theorem Fill_greedy (l : Limit α) (h : Heap α) (taker : Nat)
    (hnod : l.orders.Nodup) (htk : taker ∉ l.orders)
    (hnn : ∀ x, 0 ≤ (heapGet h x).size) :
    (∀ x, 0 ≤ (heapGet (l.Fill h taker).1 x).size) ∧
    ((heapGet (l.Fill h taker).1 taker).size ≤ (heapGet h taker).size) ∧
    ((heapGet (l.Fill h taker).1 taker).size ≠ 0 → (l.Fill h taker).2.1.orders = []) ∧
    ((heapGet h taker).size = 0 → l.Fill h taker = (h, l, [])) := by
  obtain ⟨fa, fsub, fzero, fout, fprice⟩ := fillLoop_basic l taker l.orders h hnod htk
  obtain ⟨gnn, gle, gdels⟩ := fillLoop_greedy l taker l.orders h hnod htk hnn
  have hdnod : (l.fillLoop h l.orders taker).2.2.Nodup := fsub.nodup hnod
  have hdsub : ∀ x ∈ (l.fillLoop h l.orders taker).2.2, x ∈ l.orders :=
    fun x hx => fsub.subset hx
  obtain ⟨dperm, dprice, dsize, duntouch, dvol⟩ :=
    deleteAll_spec (l.fillLoop h l.orders taker).2.2 (l.fillLoop h l.orders taker).1
      { l with totalVolume :=
          l.totalVolume - ((l.fillLoop h l.orders taker).2.1.map Match.sizeFilled).sum }
      hnod hdnod hdsub fzero
  simp only [Limit.Fill]
  refine ⟨?_, ?_, ?_, ?_⟩
  · intro x
    rw [dsize x]
    exact gnn x
  · rw [dsize taker]
    exact gle
  · intro hne
    rw [dsize taker] at hne
    have hdels := gdels hne
    have hdiff : ({ l with totalVolume :=
        l.totalVolume - ((l.fillLoop h l.orders taker).2.1.map Match.sizeFilled).sum
          : Limit α}).orders.diff (l.fillLoop h l.orders taker).2.2 = ([] : List Nat) := by
      show l.orders.diff (l.fillLoop h l.orders taker).2.2 = []
      rw [hdels]
      exact diff_self_nil _
    have hperm := dperm
    rw [hdiff] at hperm
    exact hperm.eq_nil
  · intro hz
    rw [fillLoop_taker_filled l h l.orders taker hz]
    simp

theorem pairwise_of_const {β : Type} {re : β → β → Prop} (c : β) (hre : re c c) :
    ∀ xs : List β, (∀ x ∈ xs, x = c) → xs.Pairwise re := by
  intro xs
  induction xs with
  | nil => intro _; exact .nil
  | cons x xs ih =>
    intro hall
    refine List.Pairwise.cons ?_ (ih fun y hy => hall y (List.mem_cons_of_mem _ hy))
    intro y hy
    rw [hall x (List.mem_cons_self _ _), hall y (List.mem_cons_of_mem _ hy)]
    exact hre

theorem marketLoop_spec (le : α → α → Prop) (hrefl : ∀ x, le x x) (taker : Nat) :
    ∀ (ls : List (Limit α)) (h : Heap α),
      (∀ l ∈ ls, l.orders.Nodup) → (∀ l ∈ ls, taker ∉ l.orders) →
      (∀ x, 0 ≤ (heapGet h x).size) →
      ls.Pairwise (fun a b => le a.price b.price) →
      ((marketLoop h ls taker).2.2.map Match.price).Pairwise le ∧
      (∀ l1 ∈ (marketLoop h ls taker).2.1, ∀ m ∈ (marketLoop h ls taker).2.2,
          le m.price l1.price) ∧
      (∀ m ∈ (marketLoop h ls taker).2.2, m.price ∈ ls.map Limit.price) ∧
      (∀ l1 ∈ (marketLoop h ls taker).2.1, l1.price ∈ ls.map Limit.price) ∧
      (∀ x, 0 ≤ (heapGet (marketLoop h ls taker).1 x).size) ∧
      ((heapGet h taker).size = 0 → (marketLoop h ls taker).2.2 = []) ∧
      ((heapGet (marketLoop h ls taker).1 taker).size ≤ (heapGet h taker).size) := by
  intro ls
  induction ls with
  | nil =>
    intro h _ _ hnn _
    refine ⟨List.Pairwise.nil, ?_, ?_, ?_, hnn, fun _ => rfl, le_refl _⟩
    · intro l1 hl1
      simp [marketLoop] at hl1
    · intro m hm
      simp [marketLoop] at hm
    · intro l1 hl1
      simp [marketLoop] at hl1
  | cons l rest ih =>
    intro h hnod htk hnn hsorted
    have hlnod : l.orders.Nodup := hnod l (List.mem_cons_self _ _)
    have hltk : taker ∉ l.orders := htk l (List.mem_cons_self _ _)
    obtain ⟨fprice_lvl, fmprice, fout, fvol, fperm⟩ := Fill_basic l h taker hlnod hltk
    obtain ⟨gnn, gle, gempty, gfilled⟩ := Fill_greedy l h taker hlnod hltk hnn
    obtain ⟨hsort_head, hsort_tail⟩ := List.pairwise_cons.mp hsorted
    obtain ⟨ipw, idom, imem, ismem, inn, izero, ile⟩ :=
      ih (l.Fill h taker).1 (fun l2 h2 => hnod l2 (List.mem_cons_of_mem _ h2))
        (fun l2 h2 => htk l2 (List.mem_cons_of_mem _ h2)) gnn hsort_tail
    have hcross_ms : ∀ m2 ∈ (marketLoop (l.Fill h taker).1 rest taker).2.2,
        le l.price m2.price := by
      intro m2 hm2
      obtain ⟨b, hb, heq⟩ := List.mem_map.mp (imem m2 hm2)
      rw [← heq]
      exact hsort_head b hb
    have hkey : ¬((l.Fill h taker).2.1.orders.isEmpty = true) →
        (marketLoop (l.Fill h taker).1 rest taker).2.2 = [] := by
      intro hne0
      have htz : (heapGet (l.Fill h taker).1 taker).size = 0 := by
        by_contra hcon
        exact hne0 (by simp [gempty hcon])
      exact izero htz
    simp only [marketLoop]
    refine ⟨?_, ?_, ?_, ?_, inn, ?_, le_trans ile gle⟩
    · rw [List.map_append]
      refine List.pairwise_append.mpr ⟨?_, ipw, ?_⟩
      · refine pairwise_of_const l.price (hrefl _) _ ?_
        intro q hq
        obtain ⟨m, hm, heq⟩ := List.mem_map.mp hq
        rw [← heq]
        exact fmprice m hm
      · intro a ha b hb
        obtain ⟨m1, hm1, heq1⟩ := List.mem_map.mp ha
        obtain ⟨m2, hm2, heq2⟩ := List.mem_map.mp hb
        rw [← heq1, ← heq2, fmprice m1 hm1]
        exact hcross_ms m2 hm2
    · intro l1 hl1 m hm
      by_cases hemp : (l.Fill h taker).2.1.orders.isEmpty = true
      · rw [if_pos hemp] at hl1
        rcases List.mem_append.mp hm with hm1 | hm2
        · rw [fmprice m hm1]
          obtain ⟨b, hb, heq⟩ := List.mem_map.mp (ismem l1 hl1)
          rw [← heq]
          exact hsort_head b hb
        · exact idom l1 hl1 m hm2
      · rw [if_neg hemp] at hl1
        rcases List.mem_cons.mp hl1 with rfl | hl1r
        · rcases List.mem_append.mp hm with hm1 | hm2
          · rw [fmprice m hm1, fprice_lvl]
            exact hrefl _
          · rw [hkey hemp] at hm2
            simp at hm2
        · rcases List.mem_append.mp hm with hm1 | hm2
          · rw [fmprice m hm1]
            obtain ⟨b, hb, heq⟩ := List.mem_map.mp (ismem l1 hl1r)
            rw [← heq]
            exact hsort_head b hb
          · exact idom l1 hl1r m hm2
    · intro m hm
      rcases List.mem_append.mp hm with hm1 | hm2
      · rw [List.map_cons, fmprice m hm1]
        exact List.mem_cons_self _ _
      · rw [List.map_cons]
        exact List.mem_cons_of_mem _ (imem m hm2)
    · intro l1 hl1
      by_cases hemp : (l.Fill h taker).2.1.orders.isEmpty = true
      · rw [if_pos hemp] at hl1
        rw [List.map_cons]
        exact List.mem_cons_of_mem _ (ismem l1 hl1)
      · rw [if_neg hemp] at hl1
        rcases List.mem_cons.mp hl1 with rfl | hl1r
        · rw [List.map_cons, fprice_lvl]
          exact List.mem_cons_self _ _
        · rw [List.map_cons]
          exact List.mem_cons_of_mem _ (ismem l1 hl1r)
    · intro hz
      have hfill := gfilled hz
      rw [hfill] at izero ⊢
      simp [izero hz]

/-- C6: a market order consumes price levels best-first.  `PlaceMarketOrder`
sorts the opposing side (ascending for asks, descending for bids) before the
matching loop, each level is either exhausted or ends the matching, and so
the emitted match prices are monotone in the taker-favourable direction and
every surviving opposing level's price is no better than any match price —
a better level is never skipped for a worse one.  The side conditions
(orders unique on their level, the fresh taker resting nowhere, sizes
nonnegative) hold on every state the source can reach. -/
theorem C6_best_price_first (h : Heap α) (ob : Book α) (r : Nat) (now : Int)
    (hnod : ∀ l ∈ ob.asks ++ ob.bids, l.orders.Nodup)
    (htk : ∀ l ∈ ob.asks ++ ob.bids, r ∉ l.orders)
    (hnn : ∀ x, 0 ≤ (heapGet h x).size) :
    ∀ ms h1 ob1, ob.PlaceMarketOrder h r now = .ok (ms, h1, ob1) →
      ((heapGet h r).bid = true →
        (ms.map Match.price).Pairwise (· ≤ ·) ∧
        ∀ l1 ∈ ob1.asks, ∀ m ∈ ms, m.price ≤ l1.price) ∧
      ((heapGet h r).bid = false →
        (ms.map Match.price).Pairwise (fun a b => b ≤ a) ∧
        ∀ l1 ∈ ob1.bids, ∀ m ∈ ms, l1.price ≤ m.price) := by
  intro ms h1 ob1 heq
  simp only [Book.PlaceMarketOrder] at heq
  by_cases hb : (heapGet h r).bid
  · rw [if_pos hb] at heq
    split at heq
    · exact absurd heq (by simp)
    · split at heq
      · exact absurd heq (by simp)
      · simp only [Except.ok.injEq, Prod.mk.injEq] at heq
        obtain ⟨hms, -, hob⟩ := heq
        subst hms
        subst hob
        refine ⟨fun _ => ?_, fun hfalse => absurd hb (by simp [hfalse])⟩
        have hsorted : (ob.Asks).Pairwise (fun a b => a.price ≤ b.price) :=
          List.sorted_insertionSort _ ob.asks
        have hmemA : ∀ l2 ∈ ob.Asks, l2 ∈ ob.asks := by
          intro l2 hl2
          unfold Book.Asks at hl2
          simpa using hl2
        obtain ⟨mpw, mdom, -, -, -, -, -⟩ :=
          marketLoop_spec (fun a b => a ≤ b) (fun x => le_refl x) r ob.Asks h
            (fun l2 hl2 => hnod l2 (List.mem_append_left _ (hmemA l2 hl2)))
            (fun l2 hl2 => htk l2 (List.mem_append_left _ (hmemA l2 hl2)))
            hnn hsorted
        exact ⟨mpw, mdom⟩
  · have hb2 : (heapGet h r).bid = false := by simpa using hb
    simp only [hb2, Bool.false_eq_true, if_false] at heq
    split at heq
    · exact absurd heq (by simp)
    · split at heq
      · exact absurd heq (by simp)
      · simp only [Except.ok.injEq, Prod.mk.injEq] at heq
        obtain ⟨hms, -, hob⟩ := heq
        subst hms
        subst hob
        refine ⟨fun htrue => absurd hb2 (by simp [htrue]), fun _ => ?_⟩
        have hsorted : (ob.Bids).Pairwise (fun a b => b.price ≤ a.price) :=
          List.sorted_insertionSort _ ob.bids
        have hmemB : ∀ l2 ∈ ob.Bids, l2 ∈ ob.bids := by
          intro l2 hl2
          unfold Book.Bids at hl2
          simpa using hl2
        obtain ⟨mpw, mdom, -, -, -, -, -⟩ :=
          marketLoop_spec (fun a b => b ≤ a) (fun x => le_refl x) r ob.Bids h
            (fun l2 hl2 => hnod l2 (List.mem_append_right _ (hmemB l2 hl2)))
            (fun l2 hl2 => htk l2 (List.mem_append_right _ (hmemB l2 hl2)))
            hnn hsorted
        exact ⟨mpw, mdom⟩

theorem C6_best_price_first_witness :
    (msC6.map Match.price).Pairwise (· ≤ ·) ∧
    ∀ l1 ∈ obC6post.asks, ∀ m ∈ msC6, m.price ≤ l1.price :=
  (C6_best_price_first hC6 obC6 3 99 (by decide) (by decide)
      (fun x => match x with
        | 0 => by decide
        | 1 => by decide
        | 2 => by decide
        | 3 => by decide
        | _ + 4 => le_refl 0)
      msC6 hC6post obC6post (by decide)).1 (by decide)

theorem not_mem_mapDelete (m : List (Int × Nat)) (k : Int) :
    k ∉ (mapDelete m k).map Prod.fst := by
  unfold mapDelete
  intro hk
  obtain ⟨e, hem, hek⟩ := List.mem_map.mp hk
  have hf := List.of_mem_filter hem
  simp [hek] at hf

theorem CancelOrder_ok_orders (ob : Book α) (h : Heap α) (ref : Nat) (hp : Heap α)
    (ob1 : Book α) (heq : ob.CancelOrder h (some ref) = .ok (hp, ob1)) :
    ob1.orders = mapDelete ob.orders (heapGet h ref).id := by
  simp only [Book.CancelOrder] at heq
  cases hlp : (heapGet h ref).limitPrice with
  | none =>
    rw [hlp] at heq
    exact absurd heq (by simp)
  | some p =>
    rw [hlp] at heq
    by_cases hb : (heapGet h ref).bid
    · simp only [hb, if_true] at heq
      cases hfind : ob.bids.find? (fun l => l.price == p) with
      | none =>
        rw [hfind] at heq
        simp only [Except.ok.injEq, Prod.mk.injEq] at heq
        obtain ⟨-, hob⟩ := heq
        subst hob
        rfl
      | some l =>
        rw [hfind] at heq
        simp only [Except.ok.injEq, Prod.mk.injEq] at heq
        obtain ⟨-, hob⟩ := heq
        subst hob
        split
        · simp [Book.clearLimit]
        · rfl
    · have hb2 : (heapGet h ref).bid = false := by simpa using hb
      simp only [hb2, Bool.false_eq_true, if_false] at heq
      cases hfind : ob.asks.find? (fun l => l.price == p) with
      | none =>
        rw [hfind] at heq
        simp only [Except.ok.injEq, Prod.mk.injEq] at heq
        obtain ⟨-, hob⟩ := heq
        subst hob
        rfl
      | some l =>
        rw [hfind] at heq
        simp only [Except.ok.injEq, Prod.mk.injEq] at heq
        obtain ⟨-, hob⟩ := heq
        subst hob
        split
        · simp [Book.clearLimit]
        · rfl

/-- C3 amended: the order index is written only by the two id-level
operations — a limit placement inserts the order's id and a successful
cancel deletes the looked-up order's id — while market-order matching leaves
the index untouched even though it removes fully filled orders from their
levels.  Hence an id is in the index iff it was placed by a limit order and
not yet cancelled, not iff the order is still resting. -/
theorem C3_index_membership (h : Heap α) (ob : Book α) (r : Nat) (now : Int)
    (price : α) (id : Int) :
    (∀ ms h1 ob1, ob.PlaceMarketOrder h r now = .ok (ms, h1, ob1) →
        ob1.orders = ob.orders) ∧
    ((heapGet h r).id ∈ (ob.PlaceLimitOrder h price r).2.indexIds) ∧
    (∀ ref, mapLookup ob.orders id = some ref → (heapGet h ref).id = id →
      ∀ h1 ob1, CancelBid ob h id = .ok (h1, ob1) → id ∉ ob1.indexIds) := by
  refine ⟨?_, ?_, ?_⟩
  · intro ms h1 ob1 heq
    simp only [Book.PlaceMarketOrder] at heq
    by_cases hb : (heapGet h r).bid
    · rw [if_pos hb] at heq
      split at heq
      · exact absurd heq (by simp)
      · split at heq
        · exact absurd heq (by simp)
        · simp only [Except.ok.injEq, Prod.mk.injEq] at heq
          obtain ⟨-, -, hob⟩ := heq
          subst hob
          rfl
    · rw [if_neg hb] at heq
      split at heq
      · exact absurd heq (by simp)
      · split at heq
        · exact absurd heq (by simp)
        · simp only [Except.ok.injEq, Prod.mk.injEq] at heq
          obtain ⟨-, -, hob⟩ := heq
          subst hob
          rfl
  · unfold Book.PlaceLimitOrder
    by_cases hb : (heapGet h r).bid
    · cases hfind : ob.bids.find? (fun l => l.price == price) with
      | some l =>
        simp only [hb, if_true, hfind, Book.indexIds]
        exact mem_mapInsert_self _ _ _
      | none =>
        simp only [hb, if_true, hfind, Book.indexIds]
        exact mem_mapInsert_self _ _ _
    · have hb2 : (heapGet h r).bid = false := by simpa using hb
      cases hfind : ob.asks.find? (fun l => l.price == price) with
      | some l =>
        simp only [hb2, Bool.false_eq_true, if_false, hfind, Book.indexIds]
        exact mem_mapInsert_self _ _ _
      | none =>
        simp only [hb2, Bool.false_eq_true, if_false, hfind, Book.indexIds]
        exact mem_mapInsert_self _ _ _
  · intro ref hlook hid h1 ob1 heq
    unfold CancelBid at heq
    rw [hlook] at heq
    have horders := CancelOrder_ok_orders ob h ref h1 ob1 heq
    unfold Book.indexIds
    rw [horders, hid]
    exact not_mem_mapDelete _ _

theorem C3_index_membership_witness :
    obC3post.orders = obC3.orders ∧
    (heapGet hC3 1).id ∈ (obC3.PlaceLimitOrder hC3 50 1).2.indexIds ∧
    (1 : Int) ∉ obC3c.indexIds :=
  ⟨(C3_index_membership hC3 obC3 1 99 50 1).1 [⟨1, 0, 5, 90⟩] hC3post obC3post (by decide),
   (C3_index_membership hC3 obC3 1 99 50 1).2.1,
   (C3_index_membership hC3 obC3 1 99 50 1).2.2 0 (by decide) (by decide) hC3c obC3c
     (by decide)⟩

theorem replaceLevel_of_find? (lnew : Limit α) :
    ∀ (ls : List (Limit α)) (p : α) (l : Limit α),
      ls.find? (fun x => x.price == p) = some l →
      ∃ xs ys, ls = xs ++ l :: ys ∧ (∀ x ∈ xs, x.price ≠ p) ∧ l.price = p ∧
        replaceLevel ls p lnew = xs ++ lnew :: ys := by
  intro ls
  induction ls with
  | nil =>
    intro p l hfind
    simp at hfind
  | cons x rest ih =>
    intro p l hfind
    by_cases hx : x.price = p
    · rw [List.find?_cons_of_pos _ (by simpa using hx)] at hfind
      obtain rfl : x = l := by simpa using hfind
      exact ⟨[], rest, rfl, by simp, hx, by simp [replaceLevel, hx]⟩
    · rw [List.find?_cons_of_neg _ (by simpa using hx)] at hfind
      obtain ⟨xs, ys, hdec, hxs, hlp, hrep⟩ := ih p l hfind
      refine ⟨x :: xs, ys, by rw [hdec]; rfl, ?_, hlp, ?_⟩
      · intro y hy
        rcases List.mem_cons.mp hy with rfl | hy2
        · exact hx
        · exact hxs y hy2
      · simp [replaceLevel, hx, hrep]

theorem cancel_side_spec (h : Heap α) (side : List (Limit α)) (ref : Nat) (p : α)
    (l : Limit α)
    (hfind : side.find? (fun x => x.price == p) = some l)
    (hnodups : ∀ l1 ∈ side, l1.orders.Nodup)
    (honly : ∀ l1 ∈ side, ref ∈ l1.orders → l1.price = p)
    (hnonempty : ∀ l1 ∈ side, l1.orders ≠ [])
    (hpnodup : (side.map Limit.price).Nodup) :
    ∀ l1 ∈ (if (l.DeleteOrder h ref).2.orders.isEmpty
        then swapRemoveLoop (fun x => x.price == (l.DeleteOrder h ref).2.price)
               (replaceLevel side p (l.DeleteOrder h ref).2) 0
        else replaceLevel side p (l.DeleteOrder h ref).2),
      ref ∉ l1.orders ∧ l1.orders ≠ [] := by
  have hlmem : l ∈ side := List.mem_of_find?_eq_some hfind
  have hlnod : l.orders.Nodup := hnodups l hlmem
  obtain ⟨xs, ys, hdec, hxs, hlp, hrep⟩ := replaceLevel_of_find? (l.DeleteOrder h ref).2
    side p l hfind
  have hys : ∀ y ∈ ys, y.price ≠ p := by
    intro y hy hyp
    have : (side.map Limit.price).Nodup := hpnodup
    rw [hdec] at this
    simp only [List.map_append, List.map_cons] at this
    obtain ⟨-, hnd2, -⟩ := List.nodup_append.mp this
    obtain ⟨hnotin, -⟩ := List.nodup_cons.mp hnd2
    exact hnotin (hlp ▸ hyp ▸ List.mem_map_of_mem Limit.price hy)
  have hsideprops : ∀ l1, l1 ∈ xs ∨ l1 ∈ ys → ref ∉ l1.orders ∧ l1.orders ≠ [] := by
    intro l1 hl1
    have hl1side : l1 ∈ side := by
      rw [hdec]
      rcases hl1 with hl | hl
      · exact List.mem_append_left _ hl
      · exact List.mem_append_right _ (List.mem_cons_of_mem _ hl)
    have hne : l1.price ≠ p := by
      rcases hl1 with hl | hl
      · exact hxs l1 hl
      · exact hys l1 hl
    exact ⟨fun hin => hne (honly l1 hl1side hin), hnonempty l1 hl1side⟩
  have hrefout : ref ∉ (l.DeleteOrder h ref).2.orders := by
    by_cases hrm : ref ∈ l.orders
    · obtain ⟨sperm, -, -, -, -⟩ := DeleteOrder_spec l h ref hlnod hrm
      intro hin
      exact hlnod.not_mem_erase (sperm.mem_iff.mp hin)
    · intro hin
      apply hrm
      have hnm : swapRemoveLoop (fun x => x == ref) l.orders 0 = l.orders := by
        apply swapRemoveLoop_no_match
        intro x hx
        simp only [beq_eq_false_iff_ne]
        intro hxe
        exact hrm (hxe ▸ hx)
      have : List.Perm (l.DeleteOrder h ref).2.orders l.orders := by
        show List.Perm (List.insertionSort _ (swapRemoveLoop (fun x => x == ref) l.orders 0))
          l.orders
        rw [hnm]
        exact List.perm_insertionSort _ _
      exact this.mem_iff.mp hin
  rw [hrep]
  by_cases hemp : (l.DeleteOrder h ref).2.orders.isEmpty
  · rw [if_pos hemp]
    have hpr : (l.DeleteOrder h ref).2.price = p := hlp
    have hloop : swapRemoveLoop (fun x => x.price == (l.DeleteOrder h ref).2.price)
        (xs ++ (l.DeleteOrder h ref).2 :: ys) 0 = xs ++ rotLast ys := by
      refine swapRemoveLoop_unique _ xs _ ys ?_ ?_ ?_
      · simp
      · intro x hx
        simp only [beq_eq_false_iff_ne]
        rw [hpr]
        exact hxs x hx
      · intro x hx
        simp only [beq_eq_false_iff_ne]
        rw [hpr]
        exact hys x hx
    rw [hloop]
    intro l1 hl1
    rcases List.mem_append.mp hl1 with hl | hl
    · exact hsideprops l1 (Or.inl hl)
    · exact hsideprops l1 (Or.inr ((rotLast_perm ys).mem_iff.mp hl))
  · rw [if_neg hemp]
    intro l1 hl1
    rcases List.mem_append.mp hl1 with hl | hl
    · exact hsideprops l1 (Or.inl hl)
    · rcases List.mem_cons.mp hl with rfl | hl2
      · refine ⟨hrefout, ?_⟩
        intro he
        exact hemp (by simp [he])
      · exact hsideprops l1 (Or.inr hl2)

/-- C7 amended: a cancel whose id is absent from the index, or whose order is
no longer resting (nil `Limit` back-pointer), dereferences nil and panics —
the source has no `NotFound` error value at all.  When the id refers to a
resting order, cancel succeeds: the index entry is removed, the order is
removed from its price level, and no empty level is left behind; the
opposing side and the trade log are untouched.  The side conditions (levels
nonempty with duplicate-free order slices, one level per price, the order
resting only at its back-pointer's price) hold on every reachable state. -/
theorem C7_cancel_behavior (h : Heap α) (ob : Book α) (id : Int) :
    (mapLookup ob.orders id = none → CancelBid ob h id = .error .nilDeref) ∧
    (∀ ref, mapLookup ob.orders id = some ref → (heapGet h ref).limitPrice = none →
      CancelBid ob h id = .error .nilDeref) ∧
    (∀ ref p, mapLookup ob.orders id = some ref →
      (heapGet h ref).limitPrice = some p →
      (heapGet h ref).id = id →
      (∀ l ∈ (if (heapGet h ref).bid then ob.bids else ob.asks), l.orders.Nodup) →
      (∀ l ∈ (if (heapGet h ref).bid then ob.bids else ob.asks),
          ref ∈ l.orders → l.price = p) →
      (∀ l ∈ (if (heapGet h ref).bid then ob.bids else ob.asks), l.orders ≠ []) →
      ((if (heapGet h ref).bid then ob.bids else ob.asks).map Limit.price).Nodup →
      ∃ h1 ob1, CancelBid ob h id = .ok (h1, ob1) ∧
        id ∉ ob1.indexIds ∧
        (∀ l1 ∈ (if (heapGet h ref).bid then ob1.bids else ob1.asks),
            ref ∉ l1.orders ∧ l1.orders ≠ []) ∧
        (if (heapGet h ref).bid then ob1.asks = ob.asks else ob1.bids = ob.bids) ∧
        ob1.trades = ob.trades) := by
  refine ⟨?_, ?_, ?_⟩
  · intro hlook
    unfold CancelBid
    rw [hlook]
    rfl
  · intro ref hlook hlp
    unfold CancelBid
    rw [hlook]
    simp only [Book.CancelOrder]
    rw [hlp]
  · intro ref p hlook hlp hid hnodups honly hnonempty hpnodup
    unfold CancelBid
    rw [hlook]
    simp only [Book.CancelOrder]
    rw [hlp]
    by_cases hb : (heapGet h ref).bid
    · simp only [hb, if_true] at hnodups honly hnonempty hpnodup ⊢
      cases hfind : ob.bids.find? (fun x => x.price == p) with
      | none =>
        refine ⟨h, _, rfl, ?_, ?_, rfl, rfl⟩
        · show id ∉ (mapDelete ob.orders (heapGet h ref).id).map Prod.fst
          rw [hid]
          exact not_mem_mapDelete _ _
        · intro l1 hl1
          have hnp : l1.price ≠ p := by
            have := List.find?_eq_none.mp hfind l1 hl1
            simpa using this
          exact ⟨fun hin => hnp (honly l1 hl1 hin), hnonempty l1 hl1⟩
      | some l =>
        dsimp only
        have hside := cancel_side_spec h ob.bids ref p l hfind hnodups honly hnonempty hpnodup
        by_cases hemp : (l.DeleteOrder h ref).2.orders.isEmpty
        · rw [if_pos hemp] at hside ⊢
          refine ⟨_, _, rfl, ?_, ?_, ?_, ?_⟩
          · show id ∉ (Book.clearLimit _ _ _).orders.map Prod.fst
            simp only [Book.clearLimit, hb, if_true]
            show id ∉ (mapDelete ob.orders (heapGet h ref).id).map Prod.fst
            rw [hid]
            exact not_mem_mapDelete _ _
          · simp only [Book.clearLimit, hb, if_true]
            exact hside
          · simp only [Book.clearLimit, hb, if_true]
          · simp only [Book.clearLimit, hb, if_true]
        · rw [if_neg hemp] at hside ⊢
          refine ⟨_, _, rfl, ?_, hside, rfl, rfl⟩
          show id ∉ (mapDelete ob.orders (heapGet h ref).id).map Prod.fst
          rw [hid]
          exact not_mem_mapDelete _ _
    · have hb2 : (heapGet h ref).bid = false := by simpa using hb
      simp only [hb2, Bool.false_eq_true, if_false] at hnodups honly hnonempty hpnodup ⊢
      cases hfind : ob.asks.find? (fun x => x.price == p) with
      | none =>
        refine ⟨h, _, rfl, ?_, ?_, rfl, rfl⟩
        · show id ∉ (mapDelete ob.orders (heapGet h ref).id).map Prod.fst
          rw [hid]
          exact not_mem_mapDelete _ _
        · intro l1 hl1
          have hnp : l1.price ≠ p := by
            have := List.find?_eq_none.mp hfind l1 hl1
            simpa using this
          exact ⟨fun hin => hnp (honly l1 hl1 hin), hnonempty l1 hl1⟩
      | some l =>
        dsimp only
        have hside := cancel_side_spec h ob.asks ref p l hfind hnodups honly hnonempty hpnodup
        by_cases hemp : (l.DeleteOrder h ref).2.orders.isEmpty
        · rw [if_pos hemp] at hside ⊢
          refine ⟨_, _, rfl, ?_, ?_, ?_, ?_⟩
          · show id ∉ (Book.clearLimit _ _ _).orders.map Prod.fst
            simp only [Book.clearLimit, hb2, Bool.false_eq_true, if_false]
            show id ∉ (mapDelete ob.orders (heapGet h ref).id).map Prod.fst
            rw [hid]
            exact not_mem_mapDelete _ _
          · simp only [Book.clearLimit, hb2, Bool.false_eq_true, if_false]
            exact hside
          · simp only [Book.clearLimit, hb2, Bool.false_eq_true, if_false]
          · simp only [Book.clearLimit, hb2, Bool.false_eq_true, if_false]
        · rw [if_neg hemp] at hside ⊢
          refine ⟨_, _, rfl, ?_, hside, rfl, rfl⟩
          show id ∉ (mapDelete ob.orders (heapGet h ref).id).map Prod.fst
          rw [hid]
          exact not_mem_mapDelete _ _

theorem C7_cancel_behavior_witness :
    CancelBid obC7c hC7c 7 = .error .nilDeref ∧
    ∃ h1 ob1, CancelBid obC7p hC7p 7 = .ok (h1, ob1) ∧
      (7 : Int) ∉ ob1.indexIds ∧
      (∀ l1 ∈ (if (heapGet hC7p 0).bid then ob1.bids else ob1.asks),
          0 ∉ l1.orders ∧ l1.orders ≠ []) ∧
      (if (heapGet hC7p 0).bid then ob1.asks = obC7p.asks else ob1.bids = obC7p.bids) ∧
      ob1.trades = obC7p.trades :=
  ⟨(C7_cancel_behavior hC7c obC7c 7).1 (by decide),
   (C7_cancel_behavior hC7p obC7p 7).2.2 0 100 (by decide) (by decide) (by decide)
     (by decide) (by decide) (by decide) (by decide)⟩

theorem heapGet_ts_heapSet_limitPrice (h : Heap α) (r x : Nat) (q : Option α) :
    (heapGet (heapSet h r { heapGet h r with limitPrice := q }) x).timestamp
      = (heapGet h x).timestamp := by
  by_cases hx : r = x
  · subst hx
    rw [heapGet_heapSet_self]
  · rw [heapGet_heapSet_ne _ _ _ _ hx]

theorem mapInsert_fresh (m : List (Int × Nat)) (k : Int) (v : Nat)
    (hk : ∀ e ∈ m, e.1 ≠ k) :
    mapInsert m k v = m ++ [(k, v)] := by
  unfold mapInsert
  rw [if_neg]
  intro hany
  obtain ⟨e, hem, hek⟩ := List.any_eq_true.mp hany
  exact hk e hem (by simpa using hek)

theorem mapLookup_append_fresh (m : List (Int × Nat)) (k : Int) (v : Nat)
    (hk : ∀ e ∈ m, e.1 ≠ k) :
    mapLookup (m ++ [(k, v)]) k = some v := by
  unfold mapLookup
  induction m with
  | nil => simp
  | cons e t ih =>
    rw [List.cons_append, List.find?_cons_of_neg _ (by simpa using hk e (List.mem_cons_self _ _))]
    exact ih (fun e2 he2 => hk e2 (List.mem_cons_of_mem _ he2))

theorem mapDelete_append_fresh (m : List (Int × Nat)) (k : Int) (v : Nat)
    (hk : ∀ e ∈ m, e.1 ≠ k) :
    mapDelete (m ++ [(k, v)]) k = m := by
  unfold mapDelete
  rw [List.filter_append]
  have h1 : m.filter (fun e => e.1 != k) = m :=
    List.filter_eq_self.mpr (fun e he => by simpa using hk e he)
  have h2 : List.filter (fun e => e.1 != k) [(k, v)] = [] := by simp
  rw [h1, h2, List.append_nil]

theorem find?_price_append (p : α) (xs : List (Limit α)) (lx : Limit α) (ys : List (Limit α))
    (hxs : ∀ x ∈ xs, x.price ≠ p) (hlx : lx.price = p) :
    (xs ++ lx :: ys).find? (fun x => x.price == p) = some lx := by
  induction xs with
  | nil =>
    rw [List.nil_append, List.find?_cons_of_pos _ (by simpa using hlx)]
  | cons x t ih =>
    rw [List.cons_append,
      List.find?_cons_of_neg _ (by simpa using hxs x (List.mem_cons_self _ _))]
    exact ih (fun x2 hx2 => hxs x2 (List.mem_cons_of_mem _ hx2))

theorem replaceLevel_append (p : α) (xs : List (Limit α)) (lx : Limit α)
    (ys : List (Limit α)) (lnew : Limit α)
    (hxs : ∀ x ∈ xs, x.price ≠ p) (hlx : lx.price = p) :
    replaceLevel (xs ++ lx :: ys) p lnew = xs ++ lnew :: ys := by
  induction xs with
  | nil => simp [replaceLevel, hlx]
  | cons x t ih =>
    rw [List.cons_append]
    show (if x.price = p then lnew :: (t ++ lx :: ys) else x :: replaceLevel (t ++ lx :: ys) p lnew)
      = x :: (t ++ lnew :: ys)
    rw [if_neg (hxs x (List.mem_cons_self _ _)),
      ih (fun x2 hx2 => hxs x2 (List.mem_cons_of_mem _ hx2))]

/-- C9 amended: `place_limit` followed by a cancel of the returned id
restores the book to its pre-placement snapshot, provided the new order's
randomly drawn id does not collide with an id already in the index (with a
collision the insert overwrites and the cancel then deletes the old order's
entry, so the snapshot is not restored — see the counterexample).  The
remaining side conditions (the freshly allocated order rests nowhere, levels
are nonempty and in timestamp order) hold on every reachable state. -/
theorem C9_round_trip (h : Heap α) (ob : Book α) (price : α) (ref : Nat)
    (hidfresh : ∀ e ∈ ob.orders, e.1 ≠ (heapGet h ref).id)
    (hreffresh : ∀ l ∈ (if (heapGet h ref).bid then ob.bids else ob.asks), ref ∉ l.orders)
    (hne : ∀ l ∈ (if (heapGet h ref).bid then ob.bids else ob.asks), l.orders ≠ [])
    (hsorted : ∀ l ∈ (if (heapGet h ref).bid then ob.bids else ob.asks),
        l.orders.Pairwise (fun a b => (heapGet h a).timestamp ≤ (heapGet h b).timestamp)) :
    ∃ hc, CancelBid (ob.PlaceLimitOrder h price ref).2 (ob.PlaceLimitOrder h price ref).1
        (heapGet h ref).id = .ok (hc, ob) := by
  have hlook0 : mapLookup (mapInsert ob.orders (heapGet h ref).id ref) (heapGet h ref).id
      = some ref := by
    rw [mapInsert_fresh _ _ _ hidfresh]
    exact mapLookup_append_fresh _ _ _ hidfresh
  have hdelmap : mapDelete (mapInsert ob.orders (heapGet h ref).id ref) (heapGet h ref).id
      = ob.orders := by
    rw [mapInsert_fresh _ _ _ hidfresh]
    exact mapDelete_append_fresh _ _ _ hidfresh
  by_cases hb : (heapGet h ref).bid
  · simp only [hb, if_true] at hreffresh hne hsorted
    cases hfind : ob.bids.find? (fun x => x.price == price) with
    | some l =>
      obtain ⟨xs, ys, hdec, hxs, hlp, hrep⟩ :=
        replaceLevel_of_find? (l.AddOrder h ref).2 ob.bids price l hfind
      have hlmem : l ∈ ob.bids := List.mem_of_find?_eq_some hfind
      have hget2 : heapGet (l.AddOrder h ref).1 ref
          = { heapGet h ref with limitPrice := some l.price } := by
        show heapGet (heapSet h ref { heapGet h ref with limitPrice := some l.price }) ref = _
        exact heapGet_heapSet_self _ _ _
      have hts : ∀ x, (heapGet (heapSet (l.AddOrder h ref).1 ref
            { heapGet (l.AddOrder h ref).1 ref with limitPrice := none }) x).timestamp
          = (heapGet h x).timestamp := by
        intro x
        rw [heapGet_ts_heapSet_limitPrice]
        show (heapGet (heapSet h ref { heapGet h ref with limitPrice := some l.price }) x).timestamp
          = _
        exact heapGet_ts_heapSet_limitPrice h ref x _
      have hswap : swapRemoveLoop (fun x => x == ref) (l.orders ++ [ref]) 0 = l.orders := by
        have hu := swapRemoveLoop_unique (fun x => x == ref) l.orders ref [] (by simp)
          (fun x hx => by
            simp only [beq_eq_false_iff_ne]
            intro hxe
            exact hreffresh l hlmem (hxe ▸ hx))
          (fun x hx => by simp at hx)
        simpa [rotLast] using hu
      have hsort : List.insertionSort (fun a b =>
            (heapGet (heapSet (l.AddOrder h ref).1 ref
              { heapGet (l.AddOrder h ref).1 ref with limitPrice := none }) a).timestamp
            ≤ (heapGet (heapSet (l.AddOrder h ref).1 ref
              { heapGet (l.AddOrder h ref).1 ref with limitPrice := none }) b).timestamp)
          l.orders = l.orders := by
        refine List.Sorted.insertionSort_eq ?_
        refine (hsorted l hlmem).imp ?_
        intro a b hab
        rw [hts a, hts b]
        exact hab
      have hdel : ((l.AddOrder h ref).2.DeleteOrder (l.AddOrder h ref).1 ref).2 = l := by
        have ho : (l.AddOrder h ref).2.orders = l.orders ++ [ref] := rfl
        have htv : (l.AddOrder h ref).2.totalVolume
            = l.totalVolume + (heapGet h ref).size := rfl
        have hsz : (heapGet (l.AddOrder h ref).1 ref).size = (heapGet h ref).size := by
          rw [hget2]
        show ({ (l.AddOrder h ref).2 with
              orders := List.insertionSort _
                  (swapRemoveLoop (fun x => x == ref) (l.AddOrder h ref).2.orders 0)
              totalVolume := (l.AddOrder h ref).2.totalVolume
                  - (heapGet (l.AddOrder h ref).1 ref).size } : Limit α) = l
        rw [ho, hswap, hsort, htv, hsz, add_sub_cancel_right]
        rfl
      have hfind2 : ((xs ++ (l.AddOrder h ref).2 :: ys).find? (fun x => x.price == l.price))
          = some (l.AddOrder h ref).2 := by
        refine find?_price_append l.price xs _ ys ?_ rfl
        intro x hx
        rw [hlp]
        exact hxs x hx
      have hxs2 : ∀ x ∈ xs, x.price ≠ l.price := by
        intro x hx
        rw [hlp]
        exact hxs x hx
      have hrepl2 : replaceLevel (xs ++ (l.AddOrder h ref).2 :: ys) l.price l
          = ob.bids := by
        rw [replaceLevel_append l.price xs ((l.AddOrder h ref).2) ys l hxs2 rfl, hdec]
      refine ⟨heapSet (l.AddOrder h ref).1 ref
        { heapGet (l.AddOrder h ref).1 ref with limitPrice := none }, ?_⟩
      simp only [Book.PlaceLimitOrder, hb, if_true, hfind]
      unfold CancelBid
      show Book.CancelOrder _ _ (mapLookup (mapInsert ob.orders (heapGet h ref).id ref)
        (heapGet h ref).id) = _
      rw [hlook0]
      simp only [Book.CancelOrder, hget2, hb, if_true, hrep, hfind2]
      rw [hdel]
      have hnonil : l.orders.isEmpty = false := by
        rcases hlo : l.orders with _ | ⟨a, t⟩
        · exact absurd hlo (hne l hlmem)
        · rfl
      simp only [hnonil, Bool.false_eq_true, if_false, hrepl2, hdelmap]
      refine congrArg Except.ok (Prod.ext ?_ rfl)
      show heapSet (l.AddOrder h ref).1 ref
        { heapGet (l.AddOrder h ref).1 ref with limitPrice := none } = _
      simp [hget2, hb]
    | none =>
      have hnb : ∀ x ∈ ob.bids, x.price ≠ price := by
        intro x hx
        have := List.find?_eq_none.mp hfind x hx
        simpa using this
      have hget2 : heapGet ((NewLimit price).AddOrder h ref).1 ref
          = { heapGet h ref with limitPrice := some price } := by
        show heapGet (heapSet h ref { heapGet h ref with limitPrice := some price }) ref = _
        exact heapGet_heapSet_self _ _ _
      have hl1o : ((NewLimit price).AddOrder h ref).2.orders = [ref] := rfl
      have hfind2 : ((ob.bids ++ [((NewLimit price).AddOrder h ref).2]).find?
            (fun x => x.price == price)) = some ((NewLimit price).AddOrder h ref).2 :=
        find?_price_append price ob.bids _ [] hnb rfl
      have hswap : swapRemoveLoop (fun x => x == ref) [ref] 0 = [] := by
        have hu := swapRemoveLoop_unique (fun x => x == ref) [] ref [] (by simp)
          (fun x hx => by simp at hx) (fun x hx => by simp at hx)
        simpa [rotLast] using hu
      have hdelo : (((NewLimit price).AddOrder h ref).2.DeleteOrder
          ((NewLimit price).AddOrder h ref).1 ref).2.orders = [] := by
        show List.insertionSort _
          (swapRemoveLoop (fun x => x == ref) ((NewLimit price).AddOrder h ref).2.orders 0) = []
        rw [hl1o, hswap]
        rfl
      have hdelp : (((NewLimit price).AddOrder h ref).2.DeleteOrder
          ((NewLimit price).AddOrder h ref).1 ref).2.price = price := rfl
      have hrepl2 : replaceLevel (ob.bids ++ [((NewLimit price).AddOrder h ref).2]) price
            (((NewLimit price).AddOrder h ref).2.DeleteOrder
              ((NewLimit price).AddOrder h ref).1 ref).2
          = ob.bids ++ [(((NewLimit price).AddOrder h ref).2.DeleteOrder
              ((NewLimit price).AddOrder h ref).1 ref).2] :=
        replaceLevel_append price ob.bids _ [] _ hnb rfl
      have hclear : swapRemoveLoop (fun x => x.price
            == (((NewLimit price).AddOrder h ref).2.DeleteOrder
              ((NewLimit price).AddOrder h ref).1 ref).2.price)
          (ob.bids ++ [(((NewLimit price).AddOrder h ref).2.DeleteOrder
              ((NewLimit price).AddOrder h ref).1 ref).2]) 0 = ob.bids := by
        have hu := swapRemoveLoop_unique (fun x => x.price
              == (((NewLimit price).AddOrder h ref).2.DeleteOrder
                ((NewLimit price).AddOrder h ref).1 ref).2.price)
            ob.bids ((((NewLimit price).AddOrder h ref).2.DeleteOrder
              ((NewLimit price).AddOrder h ref).1 ref).2) [] (by simp)
          (fun x hx => by
            simp only [hdelp, beq_eq_false_iff_ne]
            exact hnb x hx)
          (fun x hx => by simp at hx)
        simpa [rotLast] using hu
      refine ⟨heapSet ((NewLimit price).AddOrder h ref).1 ref
        { heapGet ((NewLimit price).AddOrder h ref).1 ref with limitPrice := none }, ?_⟩
      simp only [Book.PlaceLimitOrder, hb, if_true, hfind]
      unfold CancelBid
      show Book.CancelOrder _ _ (mapLookup (mapInsert ob.orders (heapGet h ref).id ref)
        (heapGet h ref).id) = _
      rw [hlook0]
      simp only [Book.CancelOrder, hget2, hb, if_true, hfind2]
      simp only [hdelo, List.isEmpty_nil, if_true, Book.clearLimit, hrepl2, hclear, hdelmap]
      refine congrArg Except.ok (Prod.ext ?_ rfl)
      show heapSet ((NewLimit price).AddOrder h ref).1 ref
        { heapGet ((NewLimit price).AddOrder h ref).1 ref with limitPrice := none } = _
      simp [hget2, hb]
  · have hb2 : (heapGet h ref).bid = false := by simpa using hb
    simp only [hb2, Bool.false_eq_true, if_false] at hreffresh hne hsorted
    cases hfind : ob.asks.find? (fun x => x.price == price) with
    | some l =>
      obtain ⟨xs, ys, hdec, hxs, hlp, hrep⟩ :=
        replaceLevel_of_find? (l.AddOrder h ref).2 ob.asks price l hfind
      have hlmem : l ∈ ob.asks := List.mem_of_find?_eq_some hfind
      have hget2 : heapGet (l.AddOrder h ref).1 ref
          = { heapGet h ref with limitPrice := some l.price } := by
        show heapGet (heapSet h ref { heapGet h ref with limitPrice := some l.price }) ref = _
        exact heapGet_heapSet_self _ _ _
      have hts : ∀ x, (heapGet (heapSet (l.AddOrder h ref).1 ref
            { heapGet (l.AddOrder h ref).1 ref with limitPrice := none }) x).timestamp
          = (heapGet h x).timestamp := by
        intro x
        rw [heapGet_ts_heapSet_limitPrice]
        show (heapGet (heapSet h ref { heapGet h ref with limitPrice := some l.price }) x).timestamp
          = _
        exact heapGet_ts_heapSet_limitPrice h ref x _
      have hswap : swapRemoveLoop (fun x => x == ref) (l.orders ++ [ref]) 0 = l.orders := by
        have hu := swapRemoveLoop_unique (fun x => x == ref) l.orders ref [] (by simp)
          (fun x hx => by
            simp only [beq_eq_false_iff_ne]
            intro hxe
            exact hreffresh l hlmem (hxe ▸ hx))
          (fun x hx => by simp at hx)
        simpa [rotLast] using hu
      have hsort : List.insertionSort (fun a b =>
            (heapGet (heapSet (l.AddOrder h ref).1 ref
              { heapGet (l.AddOrder h ref).1 ref with limitPrice := none }) a).timestamp
            ≤ (heapGet (heapSet (l.AddOrder h ref).1 ref
              { heapGet (l.AddOrder h ref).1 ref with limitPrice := none }) b).timestamp)
          l.orders = l.orders := by
        refine List.Sorted.insertionSort_eq ?_
        refine (hsorted l hlmem).imp ?_
        intro a b hab
        rw [hts a, hts b]
        exact hab
      have hdel : ((l.AddOrder h ref).2.DeleteOrder (l.AddOrder h ref).1 ref).2 = l := by
        have ho : (l.AddOrder h ref).2.orders = l.orders ++ [ref] := rfl
        have htv : (l.AddOrder h ref).2.totalVolume
            = l.totalVolume + (heapGet h ref).size := rfl
        have hsz : (heapGet (l.AddOrder h ref).1 ref).size = (heapGet h ref).size := by
          rw [hget2]
        show ({ (l.AddOrder h ref).2 with
              orders := List.insertionSort _
                  (swapRemoveLoop (fun x => x == ref) (l.AddOrder h ref).2.orders 0)
              totalVolume := (l.AddOrder h ref).2.totalVolume
                  - (heapGet (l.AddOrder h ref).1 ref).size } : Limit α) = l
        rw [ho, hswap, hsort, htv, hsz, add_sub_cancel_right]
        rfl
      have hfind2 : ((xs ++ (l.AddOrder h ref).2 :: ys).find? (fun x => x.price == l.price))
          = some (l.AddOrder h ref).2 := by
        refine find?_price_append l.price xs _ ys ?_ rfl
        intro x hx
        rw [hlp]
        exact hxs x hx
      have hxs2 : ∀ x ∈ xs, x.price ≠ l.price := by
        intro x hx
        rw [hlp]
        exact hxs x hx
      have hrepl2 : replaceLevel (xs ++ (l.AddOrder h ref).2 :: ys) l.price l
          = ob.asks := by
        rw [replaceLevel_append l.price xs ((l.AddOrder h ref).2) ys l hxs2 rfl, hdec]
      refine ⟨heapSet (l.AddOrder h ref).1 ref
        { heapGet (l.AddOrder h ref).1 ref with limitPrice := none }, ?_⟩
      simp only [Book.PlaceLimitOrder, hb2, Bool.false_eq_true, if_false, hfind]
      unfold CancelBid
      show Book.CancelOrder _ _ (mapLookup (mapInsert ob.orders (heapGet h ref).id ref)
        (heapGet h ref).id) = _
      rw [hlook0]
      simp only [Book.CancelOrder, hget2, hb2, Bool.false_eq_true, if_false, hrep, hfind2]
      rw [hdel]
      have hnonil : l.orders.isEmpty = false := by
        rcases hlo : l.orders with _ | ⟨a, t⟩
        · exact absurd hlo (hne l hlmem)
        · rfl
      simp only [hnonil, Bool.false_eq_true, if_false, hrepl2, hdelmap]
      refine congrArg Except.ok (Prod.ext ?_ rfl)
      show heapSet (l.AddOrder h ref).1 ref
        { heapGet (l.AddOrder h ref).1 ref with limitPrice := none } = _
      simp [hget2, hb2]
    | none =>
      have hnb : ∀ x ∈ ob.asks, x.price ≠ price := by
        intro x hx
        have := List.find?_eq_none.mp hfind x hx
        simpa using this
      have hget2 : heapGet ((NewLimit price).AddOrder h ref).1 ref
          = { heapGet h ref with limitPrice := some price } := by
        show heapGet (heapSet h ref { heapGet h ref with limitPrice := some price }) ref = _
        exact heapGet_heapSet_self _ _ _
      have hl1o : ((NewLimit price).AddOrder h ref).2.orders = [ref] := rfl
      have hfind2 : ((ob.asks ++ [((NewLimit price).AddOrder h ref).2]).find?
            (fun x => x.price == price)) = some ((NewLimit price).AddOrder h ref).2 :=
        find?_price_append price ob.asks _ [] hnb rfl
      have hswap : swapRemoveLoop (fun x => x == ref) [ref] 0 = [] := by
        have hu := swapRemoveLoop_unique (fun x => x == ref) [] ref [] (by simp)
          (fun x hx => by simp at hx) (fun x hx => by simp at hx)
        simpa [rotLast] using hu
      have hdelo : (((NewLimit price).AddOrder h ref).2.DeleteOrder
          ((NewLimit price).AddOrder h ref).1 ref).2.orders = [] := by
        show List.insertionSort _
          (swapRemoveLoop (fun x => x == ref) ((NewLimit price).AddOrder h ref).2.orders 0) = []
        rw [hl1o, hswap]
        rfl
      have hdelp : (((NewLimit price).AddOrder h ref).2.DeleteOrder
          ((NewLimit price).AddOrder h ref).1 ref).2.price = price := rfl
      have hrepl2 : replaceLevel (ob.asks ++ [((NewLimit price).AddOrder h ref).2]) price
            (((NewLimit price).AddOrder h ref).2.DeleteOrder
              ((NewLimit price).AddOrder h ref).1 ref).2
          = ob.asks ++ [(((NewLimit price).AddOrder h ref).2.DeleteOrder
              ((NewLimit price).AddOrder h ref).1 ref).2] :=
        replaceLevel_append price ob.asks _ [] _ hnb rfl
      have hclear : swapRemoveLoop (fun x => x.price
            == (((NewLimit price).AddOrder h ref).2.DeleteOrder
              ((NewLimit price).AddOrder h ref).1 ref).2.price)
          (ob.asks ++ [(((NewLimit price).AddOrder h ref).2.DeleteOrder
              ((NewLimit price).AddOrder h ref).1 ref).2]) 0 = ob.asks := by
        have hu := swapRemoveLoop_unique (fun x => x.price
              == (((NewLimit price).AddOrder h ref).2.DeleteOrder
                ((NewLimit price).AddOrder h ref).1 ref).2.price)
            ob.asks ((((NewLimit price).AddOrder h ref).2.DeleteOrder
              ((NewLimit price).AddOrder h ref).1 ref).2) [] (by simp)
          (fun x hx => by
            simp only [hdelp, beq_eq_false_iff_ne]
            exact hnb x hx)
          (fun x hx => by simp at hx)
        simpa [rotLast] using hu
      refine ⟨heapSet ((NewLimit price).AddOrder h ref).1 ref
        { heapGet ((NewLimit price).AddOrder h ref).1 ref with limitPrice := none }, ?_⟩
      simp only [Book.PlaceLimitOrder, hb2, Bool.false_eq_true, if_false, hfind]
      unfold CancelBid
      show Book.CancelOrder _ _ (mapLookup (mapInsert ob.orders (heapGet h ref).id ref)
        (heapGet h ref).id) = _
      rw [hlook0]
      simp only [Book.CancelOrder, hget2, hb2, Bool.false_eq_true, if_false, hfind2]
      simp only [hdelo, List.isEmpty_nil, if_true, Book.clearLimit, hrepl2, hclear, hdelmap]
      refine congrArg Except.ok (Prod.ext ?_ rfl)
      show heapSet ((NewLimit price).AddOrder h ref).1 ref
        { heapGet ((NewLimit price).AddOrder h ref).1 ref with limitPrice := none } = _
      simp [hget2, hb2]

/-- Witness for C9: on the fresh-id scenario the hypotheses hold and the
place-then-cancel round trip restores `bC9w` exactly. -/
theorem C9_round_trip_witness :
    ∃ hc, CancelBid (bC9w.PlaceLimitOrder hC9w 100 1).2 (bC9w.PlaceLimitOrder hC9w 100 1).1
        (heapGet hC9w 1).id = .ok (hc, bC9w) :=
  C9_round_trip hC9w bC9w 100 1 (by decide) (by decide) (by decide) (by decide)

/-- C10: a market bid of size 0 against an empty ask side on a book with no
prior trades passes the volume check (`0 > 0` is false), generates no
matches, appends no trades, and then unconditionally reads
`ob.Trades[len(ob.Trades)-1]` from the empty log — an out-of-range panic. -/
theorem C10_trade_log_read_out_of_bounds :
    Book.PlaceMarketOrder NewBookBid [(1, (⟨2, 11, 0, true, none, 200⟩ : BidData ℤ))] 1 99
      = .error .indexOutOfRange := by
  decide

end Barter
